import Mathlib

/-!
Verification of the velo terminal file browser against its specification.

This file gives a shallow embedding, in Lean, of the parts of the velo
source that the specification's claims are about:

* `src/undo.rs`: the `UndoAction` type, the `UndoStack` with its
  `push`/`undo`/`redo` operations and the `perform_undo` function, over an
  explicit model of the filesystem (`Fs`).  The filesystem is modelled as an
  association list from paths (component lists) to nodes; `std::fs`
  primitives (`remove_file`, `remove_dir`, `remove_dir_all`, `rename`,
  `Path::exists`, `Path::is_dir`) are modelled with their documented
  success/failure behaviour.
* `src/app.rs`: `FileEntry`, `Tab::sort_entries` (Rust's stable
  `sort_by` is modelled by the stable `List.insertionSort`),
  `Tab::apply_filter`, the cursor-moving fragments of the key/mouse
  handlers, the pending two-key-sequence logic of `handle_normal_key`,
  the tab operations of `App`, and the `read_dir` listing function.
* `src/file_ops.rs`: `search_recursive` over a rose-tree model of a
  directory tree.

Rust strings are kept as `String` but compared/lowercased through their
character lists (`String.data`), since the byte-wise Rust operations
correspond to character-list operations on the Lean side.
-/

/-! ## Paths and the filesystem model (for `src/undo.rs`) -/

/-- A filesystem path, as its list of components. -/
abbrev VPath := List String

/-- A filesystem node: a regular file with contents, or a directory. -/
inductive FsNode where
  | file (content : String)
  | dir
deriving DecidableEq, Repr

/-- A filesystem: a finite association of paths to nodes.  An entry for a
directory `p` may coexist with entries for paths strictly below `p`. -/
abbrev Fs := List (VPath × FsNode)

/-- Model of `Path::exists`. -/
def fsExists (fs : Fs) (p : VPath) : Bool :=
  (List.lookup p fs).isSome

/-- Model of `Path::is_dir`. -/
def fsIsDir (fs : Fs) (p : VPath) : Bool :=
  List.lookup p fs == some FsNode.dir

/-- Model of `std::fs::remove_file`: fails when the path is missing or is a
directory. -/
def removeFile (fs : Fs) (p : VPath) : Except String Fs :=
  match List.lookup p fs with
  | none => .error "Failed to remove: No such file"
  | some FsNode.dir => .error "Failed to remove: Is a directory"
  | some (FsNode.file _) => .ok (fs.filter (fun e => !(e.1 == p)))

/-- Model of `std::fs::remove_dir_all`: fails when the path is missing,
otherwise removes the path and everything below it. -/
def removeDirAll (fs : Fs) (p : VPath) : Except String Fs :=
  if fsExists fs p then
    .ok (fs.filter (fun e => !(p.isPrefixOf e.1)))
  else .error "Failed to remove: No such directory"

/-- Model of `std::fs::remove_dir`: fails when the path is missing, is not a
directory, or is a non-empty directory. -/
def removeDir (fs : Fs) (p : VPath) : Except String Fs :=
  match List.lookup p fs with
  | none => .error "Failed to remove dir: No such directory"
  | some (FsNode.file _) => .error "Failed to remove dir: Not a directory"
  | some FsNode.dir =>
    if fs.any (fun e => p.isPrefixOf e.1 && !(e.1 == p)) then
      .error "Failed to remove dir: Directory not empty"
    else .ok (fs.filter (fun e => !(e.1 == p)))

/-- Model of `std::fs::rename old new`: fails when the source is missing;
on success it moves every entry at or below `old` to the corresponding path
below `new`, replacing whatever was at or below `new`. -/
def renameFs (fs : Fs) (old new : VPath) : Except String Fs :=
  if fsExists fs old then
    .ok ((fs.filter (fun e => !(old.isPrefixOf e.1) && !(new.isPrefixOf e.1))) ++
      (fs.filter (fun e => old.isPrefixOf e.1)).map
        (fun e => (new ++ e.1.drop old.length, e.2)))
  else .error "Failed to rename: No such file"

/-! ## `src/undo.rs`: `UndoAction`, `perform_undo`, `UndoStack` -/

/-- `UndoAction` from `src/undo.rs`. -/
inductive UndoAction where
  | copy (dest : VPath)
  | move (src dest : VPath)
  | rename (old_path new_path : VPath)
  | createFile (path : VPath)
  | createDir (path : VPath)
deriving DecidableEq, Repr

/-- Model of `PathBuf::display`: components joined with a slash. -/
def pathDisplay : VPath → String
  | [] => ""
  | [s] => s
  | s :: rest => s ++ "/" ++ pathDisplay rest

/-- Model of `Path::file_name().map(to_string).unwrap_or_default()`. -/
def lastName (p : VPath) : String := p.getLastD ""

/-- `UndoAction::description` from `src/undo.rs`. -/
def UndoAction.description : UndoAction → String
  | .copy dest => "Copy → " ++ pathDisplay dest
  | .move src dest => pathDisplay src ++ " → " ++ pathDisplay dest
  | .rename old_path new_path =>
    "Rename " ++ lastName old_path ++ " → " ++ lastName new_path
  | .createFile path => "Create " ++ pathDisplay path
  | .createDir path => "Create dir " ++ pathDisplay path

/-- `perform_undo` from `src/undo.rs`: performs the reverse of an action on
the filesystem and returns the reverse action for redo. -/
def perform_undo (fs : Fs) (action : UndoAction) : Except String (UndoAction × Fs) :=
  match action with
  | .copy dest =>
    if fsIsDir fs dest then
      match removeDirAll fs dest with
      | .error e => .error e
      | .ok fs2 => .ok (.createFile dest, fs2)
    else
      match removeFile fs dest with
      | .error e => .error e
      | .ok fs2 => .ok (.createFile dest, fs2)
  | .move src dest =>
    match renameFs fs dest src with
    | .error _ => .error "Failed to move back"
    | .ok fs2 => .ok (.move dest src, fs2)
  | .rename old_path new_path =>
    match renameFs fs new_path old_path with
    | .error _ => .error "Failed to rename back"
    | .ok fs2 => .ok (.rename new_path old_path, fs2)
  | .createFile path =>
    if fsExists fs path then
      match removeFile fs path with
      | .error e => .error e
      | .ok fs2 => .ok (.createFile path, fs2)
    else .ok (.createFile path, fs)
  | .createDir path =>
    if fsExists fs path then
      match removeDir fs path with
      | .error e => .error e
      | .ok fs2 => .ok (.createDir path, fs2)
    else .ok (.createDir path, fs)

/-- `UndoStack` from `src/undo.rs`.  The head of each list is the top of
the corresponding stack (Rust pushes/pops at the end of a `Vec`; evicting
the oldest entry, Rust's `remove(0)`, is `dropLast` here). -/
structure UndoStack where
  undo : List UndoAction
  redo : List UndoAction
  max_size : Nat
deriving DecidableEq, Repr

/-- `UndoStack::new`. -/
def UndoStack.new : UndoStack := { undo := [], redo := [], max_size := 100 }

/-- `UndoStack::push`: records a completed action and clears the redo
stack, evicting the oldest entry past the size cap. -/
def UndoStack.push (s : UndoStack) (action : UndoAction) : UndoStack :=
  let u := action :: s.undo
  { s with undo := if s.max_size < u.length then u.dropLast else u, redo := [] }

/-- `UndoStack::undo`, with the filesystem passed explicitly.  Mirrors the
source exactly: the action is popped first, then `perform_undo` runs; on
failure the popped action has already left the stack and is dropped. -/
def UndoStack.doUndo (s : UndoStack) (fs : Fs) : UndoStack × Fs × Except String String :=
  match s.undo with
  | [] => (s, fs, .error "Nothing to undo")
  | action :: rest =>
    match perform_undo fs action with
    | .error e => ({ s with undo := rest }, fs, .error e)
    | .ok (rev, fs2) =>
      ({ s with undo := rest, redo := rev :: s.redo }, fs2,
        .ok ("Undo: " ++ action.description))

/-- `UndoStack::redo`, symmetric to `UndoStack.doUndo`. -/
def UndoStack.doRedo (s : UndoStack) (fs : Fs) : UndoStack × Fs × Except String String :=
  match s.redo with
  | [] => (s, fs, .error "Nothing to redo")
  | action :: rest =>
    match perform_undo fs action with
    | .error e => ({ s with redo := rest }, fs, .error e)
    | .ok (rev, fs2) =>
      ({ s with redo := rest, undo := rev :: s.undo }, fs2,
        .ok ("Redo: " ++ action.description))

/-- Is an `Except` value `ok`?  (Model of `Result::is_ok`.) -/
def isOkE {ε α : Type} : Except ε α → Bool
  | .ok _ => true
  | .error _ => false

/-! ## Basic lemmas about the filesystem model -/

theorem fsExists_of_mem {p : VPath} {v : FsNode} {fs : Fs}
    (h : (p, v) ∈ fs) : fsExists fs p = true := by
  induction fs with
  | nil => cases h
  | cons e rest ih =>
    rcases e with ⟨a, b⟩
    by_cases hp : p = a
    · subst hp
      simp [fsExists, List.lookup]
    · have hmem : (p, v) ∈ rest := by
        rcases List.mem_cons.mp h with h1 | h1
        · cases h1
          exact absurd rfl hp
        · exact h1
      have hb : (p == a) = false := by simpa using hp
      have := ih hmem
      simp only [fsExists, List.lookup, hb] at this ⊢
      exact this

theorem mem_of_lookup_eq_some {fs : Fs} {p : VPath} {v : FsNode}
    (h : List.lookup p fs = some v) : (p, v) ∈ fs := by
  induction fs with
  | nil => simp [List.lookup] at h
  | cons e rest ih =>
    rcases e with ⟨a, b⟩
    by_cases hp : p = a
    · subst hp
      simp [List.lookup] at h
      subst h
      exact List.mem_cons_self _ _
    · have hb : (p == a) = false := by simpa using hp
      simp only [List.lookup, hb] at h
      exact List.mem_cons_of_mem _ (ih h)

theorem isPrefixOf_refl (p : VPath) : p.isPrefixOf p = true := by
  induction p with
  | nil => simp [List.isPrefixOf]
  | cons a rest ih => simp [List.isPrefixOf, ih]

theorem isPrefixOf_self_append (p t : VPath) : p.isPrefixOf (p ++ t) = true := by
  induction p with
  | nil => simp [List.isPrefixOf]
  | cons a rest ih => simp [List.isPrefixOf, ih]

theorem append_drop_of_isPrefixOf {p q : VPath} (h : p.isPrefixOf q = true) :
    p ++ q.drop p.length = q := by
  induction p generalizing q with
  | nil => simp
  | cons a rest ih =>
    cases q with
    | nil => simp [List.isPrefixOf] at h
    | cons b qrest =>
      simp only [List.isPrefixOf, Bool.and_eq_true, beq_iff_eq] at h
      rcases h with ⟨hab, hpre⟩
      subst hab
      simpa using ih hpre

/-! ## Claim C1: behaviour of `undo`/`redo` when the inverse fails -/

/-- A one-element undo stack recording a move whose destination is gone. -/
def c1stack : UndoStack :=
  { undo := [UndoAction.move ["a"] ["b"]], redo := [], max_size := 100 }

/-- The empty filesystem: the recorded move's destination `b` is missing. -/
def c1fs : Fs := []

/-- C1 (counterexample): undoing a recorded `Move` whose destination no
longer exists reports an error, but the undo stack is NOT left as it was:
the failed action has been popped and is lost.  This falsifies the claim
that "both the undo stack and the redo stack are left exactly as they were
before the call (no partial pop; the failed action is not lost)". -/
theorem c1_counterexample :
    isOkE (c1stack.doUndo c1fs).2.2 = false ∧
    (c1stack.doUndo c1fs).1.undo ≠ c1stack.undo := by
  decide

/-- C1 (amended): if the inverse filesystem operation fails, the failure is
surfaced as an error to the caller, the filesystem and the opposite stack
are unchanged, but the failed action has already been popped from the stack
it came from and is not re-pushed (the stack becomes its tail).  This holds
for `undo` and symmetrically for `redo`. -/
theorem c1_failed_inverse_pops_action :
    (∀ (s : UndoStack) (fs : Fs) (a : UndoAction) (rest : List UndoAction) (e : String),
      s.undo = a :: rest → perform_undo fs a = .error e →
      s.doUndo fs = ({ s with undo := rest }, fs, .error e)) ∧
    (∀ (s : UndoStack) (fs : Fs) (a : UndoAction) (rest : List UndoAction) (e : String),
      s.redo = a :: rest → perform_undo fs a = .error e →
      s.doRedo fs = ({ s with redo := rest }, fs, .error e)) := by
  constructor
  · intro s fs a rest e hu hp
    simp [UndoStack.doUndo, hu, hp]
  · intro s fs a rest e hr hp
    simp [UndoStack.doRedo, hr, hp]

/-- Witness for `c1_failed_inverse_pops_action` at a concrete stack and
filesystem. -/
theorem c1_failed_inverse_pops_action_witness :
    c1stack.doUndo c1fs = ({ c1stack with undo := [] }, c1fs, .error "Failed to move back") :=
  c1_failed_inverse_pops_action.1 c1stack c1fs (UndoAction.move ["a"] ["b"]) [] "Failed to move back"
    rfl rfl

/-! ## Claim C10: undoing an already-missing created target -/

/-- C10: undoing a recorded `CreateFile` or `CreateDir` whose path no longer
exists succeeds (returns `ok` and pushes the reverse action onto the redo
stack) as a silent no-op, whereas the inverses of `Copy`, `Move` and
`Rename` fail when their target is missing. -/
theorem c10_missing_created_target :
    (∀ (s : UndoStack) (fs : Fs) (p : VPath) (rest : List UndoAction),
      fsExists fs p = false → s.undo = UndoAction.createFile p :: rest →
      s.doUndo fs = ({ s with undo := rest, redo := UndoAction.createFile p :: s.redo }, fs,
        .ok ("Undo: " ++ (UndoAction.createFile p).description))) ∧
    (∀ (s : UndoStack) (fs : Fs) (p : VPath) (rest : List UndoAction),
      fsExists fs p = false → s.undo = UndoAction.createDir p :: rest →
      s.doUndo fs = ({ s with undo := rest, redo := UndoAction.createDir p :: s.redo }, fs,
        .ok ("Undo: " ++ (UndoAction.createDir p).description))) ∧
    (∀ (fs : Fs) (p : VPath), fsExists fs p = false →
      isOkE (perform_undo fs (UndoAction.copy p)) = false) ∧
    (∀ (fs : Fs) (p src : VPath), fsExists fs p = false →
      isOkE (perform_undo fs (UndoAction.move src p)) = false) ∧
    (∀ (fs : Fs) (p old : VPath), fsExists fs p = false →
      isOkE (perform_undo fs (UndoAction.rename old p)) = false) := by
  refine ⟨?_, ?_, ?_, ?_, ?_⟩
  · intro s fs p rest hmiss hu
    simp [UndoStack.doUndo, hu, perform_undo, hmiss]
  · intro s fs p rest hmiss hu
    simp [UndoStack.doUndo, hu, perform_undo, hmiss]
  · intro fs p hmiss
    have hlk : List.lookup p fs = none := by
      cases h : List.lookup p fs with
      | none => rfl
      | some v => simp [fsExists, h] at hmiss
    have hdir : fsIsDir fs p = false := by simp [fsIsDir, hlk]
    simp [perform_undo, hdir, removeFile, hlk, isOkE]
  · intro fs p src hmiss
    simp [perform_undo, renameFs, hmiss, isOkE]
  · intro fs p old hmiss
    simp [perform_undo, renameFs, hmiss, isOkE]

/-- A one-element undo stack recording a file creation at `x`. -/
def c10stack : UndoStack :=
  { undo := [UndoAction.createFile ["x"]], redo := [], max_size := 100 }

/-- Witness for `c10_missing_created_target` at concrete inputs. -/
theorem c10_missing_created_target_witness :
    c10stack.doUndo ([] : Fs)
      = ({ undo := [], redo := [UndoAction.createFile ["x"]], max_size := 100 }, ([] : Fs),
        .ok ("Undo: " ++ (UndoAction.createFile ["x"]).description)) ∧
    isOkE (perform_undo ([] : Fs) (UndoAction.copy ["x"])) = false := by
  constructor
  · exact c10_missing_created_target.1 c10stack ([] : Fs) ["x"] [] (by decide) rfl
  · exact c10_missing_created_target.2.2.1 ([] : Fs) ["x"] (by decide)

/-! ## Claim C2: the `push; undo; redo` round trip -/

/-- A filesystem holding a single file at `f` (the state just after a
recorded `CreateFile` action executed its forward effect). -/
def c2fs : Fs := [(["f"], FsNode.file "x")]

/-- The stack after `push (CreateFile f)` on a fresh stack. -/
def c2stack : UndoStack := UndoStack.new.push (UndoAction.createFile ["f"])

/-- C2 (counterexample): for `A = CreateFile f`, the sequence
`push A; undo(); redo()` has every step succeed, yet the final filesystem
is missing the created file: redoing the undone creation is a silent no-op
(the reverse of a `CreateFile` is again a deletion), so the state is not
equivalent to the state after `A`'s forward effect. -/
theorem c2_counterexample :
    isOkE (c2stack.doUndo c2fs).2.2 = true ∧
    isOkE (((c2stack.doUndo c2fs).1).doRedo (c2stack.doUndo c2fs).2.1).2.2 = true ∧
    ¬ List.Perm (((c2stack.doUndo c2fs).1).doRedo (c2stack.doUndo c2fs).2.1).2.1 c2fs := by
  refine ⟨by decide, by decide, by decide⟩

/-- Undoing and then redoing a rename restores the filesystem, as long as
the renamed-from path is genuinely vacated (`h1`) and the renamed-to path
exists (`h3`), which is exactly the state the forward effect leaves. -/
theorem rename_roundtrip (fs : Fs) (src dest : VPath)
    (h1 : ∀ e ∈ fs, src.isPrefixOf e.1 = false)
    (h3 : fsExists fs dest = true) :
    ∃ fs1 fs2, renameFs fs dest src = .ok fs1 ∧ renameFs fs1 src dest = .ok fs2 ∧
      List.Perm fs2 fs := by
  have hstep1 : renameFs fs dest src =
      .ok ((fs.filter (fun e => !(dest.isPrefixOf e.1) && !(src.isPrefixOf e.1))) ++
        (fs.filter (fun e => dest.isPrefixOf e.1)).map
          (fun e => (src ++ e.1.drop dest.length, e.2))) := by
    simp only [renameFs, h3, if_true]
  have h3e : (List.lookup dest fs).isSome = true := h3
  rcases Option.isSome_iff_exists.mp h3e with ⟨v, hv⟩
  have hdmem : (dest, v) ∈ fs := mem_of_lookup_eq_some hv
  have hsrcmem : (src, v) ∈
      (fs.filter (fun e => !(dest.isPrefixOf e.1) && !(src.isPrefixOf e.1))) ++
      (fs.filter (fun e => dest.isPrefixOf e.1)).map
        (fun e => (src ++ e.1.drop dest.length, e.2)) := by
    apply List.mem_append_right
    have hmf : (dest, v) ∈ fs.filter (fun e => dest.isPrefixOf e.1) :=
      List.mem_filter.mpr ⟨hdmem, isPrefixOf_refl dest⟩
    have hmm := List.mem_map_of_mem
      (fun e : VPath × FsNode => (src ++ e.1.drop dest.length, e.2)) hmf
    have hmm2 : (src ++ List.drop dest.length dest, v) ∈
        (fs.filter (fun e => dest.isPrefixOf e.1)).map
          (fun e => (src ++ e.1.drop dest.length, e.2)) := hmm
    rw [List.drop_length, List.append_nil] at hmm2
    exact hmm2
  have hex1 : fsExists
      ((fs.filter (fun e => !(dest.isPrefixOf e.1) && !(src.isPrefixOf e.1))) ++
        (fs.filter (fun e => dest.isPrefixOf e.1)).map
          (fun e => (src ++ e.1.drop dest.length, e.2))) src = true :=
    fsExists_of_mem hsrcmem
  have hAmem : ∀ e ∈ fs.filter (fun e => !(dest.isPrefixOf e.1) && !(src.isPrefixOf e.1)),
      dest.isPrefixOf e.1 = false ∧ src.isPrefixOf e.1 = false := by
    intro e he
    have := (List.mem_filter.mp he).2
    simp only [Bool.and_eq_true, Bool.not_eq_true'] at this
    exact this
  have hBmem : ∀ e ∈ (fs.filter (fun e => dest.isPrefixOf e.1)).map
      (fun e => (src ++ e.1.drop dest.length, e.2)), src.isPrefixOf e.1 = true := by
    intro e he
    rcases List.mem_map.mp he with ⟨x, _, rfl⟩
    exact isPrefixOf_self_append src _
  have hfiltA : (fs.filter (fun e => !(dest.isPrefixOf e.1) && !(src.isPrefixOf e.1))).filter
      (fun e => !(src.isPrefixOf e.1) && !(dest.isPrefixOf e.1))
      = fs.filter (fun e => !(dest.isPrefixOf e.1) && !(src.isPrefixOf e.1)) := by
    apply List.filter_eq_self.mpr
    intro e he
    rcases hAmem e he with ⟨hd, hs⟩
    simp [hd, hs]
  have hfiltB : ((fs.filter (fun e => dest.isPrefixOf e.1)).map
      (fun e => (src ++ e.1.drop dest.length, e.2))).filter
      (fun e => !(src.isPrefixOf e.1) && !(dest.isPrefixOf e.1)) = [] := by
    apply List.filter_eq_nil_iff.mpr
    intro e he
    simp [hBmem e he]
  have hfiltA2 : (fs.filter (fun e => !(dest.isPrefixOf e.1) && !(src.isPrefixOf e.1))).filter
      (fun e => src.isPrefixOf e.1) = [] := by
    apply List.filter_eq_nil_iff.mpr
    intro e he
    simp [(hAmem e he).2]
  have hfiltB2 : ((fs.filter (fun e => dest.isPrefixOf e.1)).map
      (fun e => (src ++ e.1.drop dest.length, e.2))).filter
      (fun e => src.isPrefixOf e.1)
      = (fs.filter (fun e => dest.isPrefixOf e.1)).map
        (fun e => (src ++ e.1.drop dest.length, e.2)) := by
    apply List.filter_eq_self.mpr
    intro e he
    simp [hBmem e he]
  have hmapB : ((fs.filter (fun e => dest.isPrefixOf e.1)).map
      (fun e => (src ++ e.1.drop dest.length, e.2))).map
        (fun e : VPath × FsNode => (dest ++ e.1.drop src.length, e.2))
      = fs.filter (fun e => dest.isPrefixOf e.1) := by
    rw [List.map_map]
    have hpt : ∀ e ∈ fs.filter (fun e => dest.isPrefixOf e.1),
        ((fun e : VPath × FsNode => (dest ++ e.1.drop src.length, e.2)) ∘
          (fun e : VPath × FsNode => (src ++ e.1.drop dest.length, e.2))) e = id e := by
      intro e he
      have hd : dest.isPrefixOf e.1 = true := (List.mem_filter.mp he).2
      simp only [Function.comp, id]
      rw [List.drop_left, append_drop_of_isPrefixOf hd]
    rw [List.map_congr_left hpt, List.map_id]
  refine ⟨_, (fs.filter (fun e => !(dest.isPrefixOf e.1) && !(src.isPrefixOf e.1))) ++
    fs.filter (fun e => dest.isPrefixOf e.1), hstep1, ?_, ?_⟩
  · simp only [renameFs, hex1, if_true]
    rw [List.filter_append, hfiltA, hfiltB, List.append_nil,
      List.filter_append, hfiltA2, hfiltB2, List.nil_append, hmapB]
  · have hAeq : fs.filter (fun e => !(dest.isPrefixOf e.1) && !(src.isPrefixOf e.1))
        = fs.filter (fun e => !(dest.isPrefixOf e.1)) := by
      apply List.filter_congr
      intro e he
      simp [h1 e he]
    rw [hAeq]
    exact List.Perm.trans List.perm_append_comm
      (List.filter_append_perm (fun e => dest.isPrefixOf e.1) fs)

/-- C2 (amended): the round trip `push A; undo(); redo()` restores the
post-forward-effect filesystem for `A = Move` and `A = Rename` — the two
variants whose reverse actions record both endpoints.  The hypotheses say
the starting state is one a successful forward effect can leave: nothing
remains at or below the vacated source and the destination exists.  (For
`Copy`, `CreateFile` and `CreateDir` the claim fails: see the
counterexample, where the redo is a silent no-op and the created target
stays missing.) -/
theorem c2_roundtrip_move_rename :
    (∀ (src dest : VPath) (fs0 : Fs),
      (∀ e ∈ fs0, src.isPrefixOf e.1 = false) → fsExists fs0 dest = true →
      ∃ fs1 fs2,
        (UndoStack.new.push (UndoAction.move src dest)).doUndo fs0
          = ({ undo := [], redo := [UndoAction.move dest src], max_size := 100 }, fs1,
            .ok ("Undo: " ++ (UndoAction.move src dest).description)) ∧
        ({ undo := [], redo := [UndoAction.move dest src], max_size := 100 } : UndoStack).doRedo fs1
          = ({ undo := [UndoAction.move src dest], redo := [], max_size := 100 }, fs2,
            .ok ("Redo: " ++ (UndoAction.move dest src).description)) ∧
        List.Perm fs2 fs0) ∧
    (∀ (old new : VPath) (fs0 : Fs),
      (∀ e ∈ fs0, old.isPrefixOf e.1 = false) → fsExists fs0 new = true →
      ∃ fs1 fs2,
        (UndoStack.new.push (UndoAction.rename old new)).doUndo fs0
          = ({ undo := [], redo := [UndoAction.rename new old], max_size := 100 }, fs1,
            .ok ("Undo: " ++ (UndoAction.rename old new).description)) ∧
        ({ undo := [], redo := [UndoAction.rename new old], max_size := 100 } : UndoStack).doRedo fs1
          = ({ undo := [UndoAction.rename old new], redo := [], max_size := 100 }, fs2,
            .ok ("Redo: " ++ (UndoAction.rename new old).description)) ∧
        List.Perm fs2 fs0) := by
  constructor
  · intro src dest fs0 h1 h3
    obtain ⟨fs1, fs2, hr1, hr2, hperm⟩ := rename_roundtrip fs0 src dest h1 h3
    refine ⟨fs1, fs2, ?_, ?_, hperm⟩
    · have hpush : UndoStack.new.push (UndoAction.move src dest)
          = { undo := [UndoAction.move src dest], redo := [], max_size := 100 } := rfl
      rw [hpush]
      simp [UndoStack.doUndo, perform_undo, hr1]
    · simp [UndoStack.doRedo, perform_undo, hr2]
  · intro old new fs0 h1 h3
    obtain ⟨fs1, fs2, hr1, hr2, hperm⟩ := rename_roundtrip fs0 old new h1 h3
    refine ⟨fs1, fs2, ?_, ?_, hperm⟩
    · have hpush : UndoStack.new.push (UndoAction.rename old new)
          = { undo := [UndoAction.rename old new], redo := [], max_size := 100 } := rfl
      rw [hpush]
      simp [UndoStack.doUndo, perform_undo, hr1]
    · simp [UndoStack.doRedo, perform_undo, hr2]

/-- Witness for `c2_roundtrip_move_rename` at a concrete move and rename. -/
theorem c2_roundtrip_move_rename_witness :
    (∃ fs1 fs2,
      (UndoStack.new.push (UndoAction.move ["a"] ["b"])).doUndo [(["b"], FsNode.file "x")]
        = ({ undo := [], redo := [UndoAction.move ["b"] ["a"]], max_size := 100 }, fs1,
          .ok ("Undo: " ++ (UndoAction.move ["a"] ["b"]).description)) ∧
      ({ undo := [], redo := [UndoAction.move ["b"] ["a"]], max_size := 100 } : UndoStack).doRedo fs1
        = ({ undo := [UndoAction.move ["a"] ["b"]], redo := [], max_size := 100 }, fs2,
          .ok ("Redo: " ++ (UndoAction.move ["b"] ["a"]).description)) ∧
      List.Perm fs2 [(["b"], FsNode.file "x")]) ∧
    (∃ fs1 fs2,
      (UndoStack.new.push (UndoAction.rename ["o"] ["n"])).doUndo [(["n"], FsNode.file "y")]
        = ({ undo := [], redo := [UndoAction.rename ["n"] ["o"]], max_size := 100 }, fs1,
          .ok ("Undo: " ++ (UndoAction.rename ["o"] ["n"]).description)) ∧
      ({ undo := [], redo := [UndoAction.rename ["n"] ["o"]], max_size := 100 } : UndoStack).doRedo fs1
        = ({ undo := [UndoAction.rename ["o"] ["n"]], redo := [], max_size := 100 }, fs2,
          .ok ("Redo: " ++ (UndoAction.rename ["n"] ["o"]).description)) ∧
      List.Perm fs2 [(["n"], FsNode.file "y")]) := by
  constructor
  · exact c2_roundtrip_move_rename.1 ["a"] ["b"] [(["b"], FsNode.file "x")]
      (by decide) (by decide)
  · exact c2_roundtrip_move_rename.2 ["o"] ["n"] [(["n"], FsNode.file "y")]
      (by decide) (by decide)

/-! ## `src/app.rs` data model: `FileEntry`, `SortBy` -/

/-- `GitFileStatus` from `src/git_status.rs`. -/
inductive GitFileStatus where
  | modified
  | staged
  | untracked
  | conflict
  | deleted
  | renamed
  | ignored
deriving DecidableEq, Repr

/-- `SortBy` from `src/config.rs`. -/
inductive SortBy where
  | name
  | size
  | date
  | extension
deriving DecidableEq, Repr

/-- `FileEntry` from `src/app.rs`.  `SystemTime` is modelled as a `Nat`
timestamp. -/
structure FileEntry where
  name : String
  path : VPath
  is_dir : Bool
  is_symlink : Bool
  symlink_target : Option String
  size : Nat
  modified : Option Nat
  git_status : Option GitFileStatus
deriving DecidableEq, Repr

/-! ## String helpers over character lists

Rust's `str::to_lowercase`, `str::starts_with('.')`, byte-wise `Ord` on
`String` and `str::contains` are modelled on `String.data`, the underlying
character list (UTF-8 byte order agrees with scalar-value order). -/

/-- Model of `str::to_lowercase` (ASCII case folding). -/
def lowerChars (s : String) : List Char := s.data.map Char.toLower

/-- Model of `str::starts_with('.')`. -/
def startsWithDot (s : String) : Bool :=
  match s.data with
  | [] => false
  | c :: _ => c == '.'

/-- Three-way comparison on `Nat` (Rust `Ord::cmp` on integers). -/
def cmpNat (x y : Nat) : Ordering :=
  if x < y then .lt else if y < x then .gt else .eq

/-- Three-way comparison on `Bool` (Rust `Ord::cmp`, `false < true`). -/
def cmpBool : Bool → Bool → Ordering
  | false, false => .eq
  | true, true => .eq
  | false, true => .lt
  | true, false => .gt

/-- Three-way comparison on `Char` via scalar values. -/
def cmpChar (a b : Char) : Ordering := cmpNat a.toNat b.toNat

/-- Lexicographic three-way comparison on character lists (Rust `Ord` on
`String`). -/
def cmpChars : List Char → List Char → Ordering
  | [], [] => .eq
  | [], _ :: _ => .lt
  | _ :: _, [] => .gt
  | a :: as, b :: bs =>
    match cmpChar a b with
    | .eq => cmpChars as bs
    | o => o

/-- Three-way comparison on `Option Nat` (Rust `Ord` on `Option`:
`None < Some`). -/
def cmpOptNat : Option Nat → Option Nat → Ordering
  | none, none => .eq
  | none, some _ => .lt
  | some _, none => .gt
  | some a, some b => cmpNat a b

/-- The characters after the last dot of `rest`, given that `rest`
contains a dot. -/
def afterLastDot : List Char → List Char
  | [] => []
  | '.' :: rest => if rest.contains '.' then afterLastDot rest else rest
  | _ :: rest => afterLastDot rest

/-- Model of
`Path::new(&name).extension().map(to_lowercase).unwrap_or_default()` from
`Tab::sort_entries`: the (lowercased) part of the name after the last dot,
empty when there is no extension (no dot, or only a leading dot). -/
def extLower (name : String) : List Char :=
  (match name.data with
   | [] => []
   | _ :: rest => if rest.contains '.' then afterLastDot rest else []).map Char.toLower

/-- The comparator of `Tab::sort_entries` from `src/app.rs`: directories
first, then the configured key; `Size` and `Date` descending; `Extension`
ties broken by case-insensitive name. -/
def cmpEntries (sort_by : SortBy) (a b : FileEntry) : Ordering :=
  match cmpBool b.is_dir a.is_dir with
  | .eq =>
    match sort_by with
    | .name => cmpChars (lowerChars a.name) (lowerChars b.name)
    | .size => cmpNat b.size a.size
    | .date => cmpOptNat b.modified a.modified
    | .extension =>
      match cmpChars (extLower a.name) (extLower b.name) with
      | .eq => cmpChars (lowerChars a.name) (lowerChars b.name)
      | o => o
  | o => o

/-- The "less or equivalent" relation induced by the sort comparator. -/
def entryLE (sort_by : SortBy) (a b : FileEntry) : Prop :=
  (cmpEntries sort_by a b).isLE = true

instance (sort_by : SortBy) : DecidableRel (entryLE sort_by) := fun a b => by
  unfold entryLE
  infer_instance

/-- `Tab::sort_entries` from `src/app.rs`.  Rust's `Vec::sort_by` is a
stable sort by the given comparator; it is modelled by the stable
`List.insertionSort` on the induced total preorder. -/
def sort_entries (sort_by : SortBy) (entries : List FileEntry) : List FileEntry :=
  entries.insertionSort (entryLE sort_by)

/-! ## Laws of the sort comparators -/

/-- The laws a three-way comparator needs for sorting: antisymmetry of the
result under argument swap and transitivity of the strict and equivalence
parts. -/
structure CmpLaws {α : Type} (c : α → α → Ordering) : Prop where
  symm : ∀ (a b : α), c b a = (c a b).swap
  lt_trans : ∀ (a b d : α), c a b = .lt → c b d = .lt → c a d = .lt
  lt_of_lt_of_eq : ∀ (a b d : α), c a b = .lt → c b d = .eq → c a d = .lt
  lt_of_eq_of_lt : ∀ (a b d : α), c a b = .eq → c b d = .lt → c a d = .lt
  eq_trans : ∀ (a b d : α), c a b = .eq → c b d = .eq → c a d = .eq

theorem cmpNat_lt_iff (x y : Nat) : cmpNat x y = .lt ↔ x < y := by
  unfold cmpNat
  split
  · simp [*]
  · split <;> simp <;> omega

theorem cmpNat_eq_iff (x y : Nat) : cmpNat x y = .eq ↔ x = y := by
  unfold cmpNat
  split
  · simp
    omega
  · split <;> simp <;> omega

theorem cmpNat_symm (x y : Nat) : cmpNat y x = (cmpNat x y).swap := by
  unfold cmpNat
  split <;> split <;> simp_all [Ordering.swap]
  all_goals omega

theorem cmpNat_laws : CmpLaws cmpNat := by
  refine ⟨cmpNat_symm, ?_, ?_, ?_, ?_⟩ <;> intro a b d h1 h2 <;>
    simp only [cmpNat_lt_iff, cmpNat_eq_iff] at h1 h2 ⊢ <;> omega

theorem cmpChar_lt_iff (a b : Char) : cmpChar a b = .lt ↔ a.toNat < b.toNat :=
  cmpNat_lt_iff _ _

theorem cmpChar_eq_iff (a b : Char) : cmpChar a b = .eq ↔ a = b := by
  rw [cmpChar, cmpNat_eq_iff]
  constructor
  · intro h
    have h2 : a.val = b.val := by
      have hb : a.val.toBitVec = b.val.toBitVec := by
        apply BitVec.eq_of_toNat_eq
        exact h
      exact UInt32.eq_of_toBitVec_eq hb
    exact Char.eq_of_val_eq h2
  · intro h
    rw [h]

theorem cmpChar_symm (a b : Char) : cmpChar b a = (cmpChar a b).swap :=
  cmpNat_symm _ _

theorem cmpChars_symm (as bs : List Char) : cmpChars bs as = (cmpChars as bs).swap := by
  induction as generalizing bs with
  | nil => cases bs <;> rfl
  | cons a as ih =>
    cases bs with
    | nil => rfl
    | cons b bs =>
      simp only [cmpChars, cmpChar_symm a b]
      cases hv : cmpChar a b <;> simp [Ordering.swap, ih bs]

theorem cmpChars_eq_iff (as bs : List Char) : cmpChars as bs = .eq ↔ as = bs := by
  induction as generalizing bs with
  | nil => cases bs <;> simp [cmpChars]
  | cons a as ih =>
    cases bs with
    | nil => simp [cmpChars]
    | cons b bs =>
      simp only [cmpChars]
      cases hv : cmpChar a b with
      | eq =>
        have hab : a = b := (cmpChar_eq_iff a b).mp hv
        simp [hab, ih bs]
      | lt =>
        have : ¬ a = b := by
          intro h
          rw [h] at hv
          rw [(cmpChar_eq_iff b b).mpr rfl] at hv
          cases hv
        simp [this]
      | gt =>
        have : ¬ a = b := by
          intro h
          rw [h] at hv
          rw [(cmpChar_eq_iff b b).mpr rfl] at hv
          cases hv
        simp [this]

theorem cmpChars_lt_trans (as bs ds : List Char) :
    cmpChars as bs = .lt → cmpChars bs ds = .lt → cmpChars as ds = .lt := by
  induction as generalizing bs ds with
  | nil =>
    intro h1 h2
    cases bs with
    | nil => cases h1
    | cons b bs =>
      cases ds with
      | nil => cases h2
      | cons d ds => rfl
  | cons a as ih =>
    intro h1 h2
    cases bs with
    | nil => cases h1
    | cons b bs =>
      cases ds with
      | nil => cases h2
      | cons d ds =>
        simp only [cmpChars] at h1 h2 ⊢
        cases hab : cmpChar a b with
        | gt => rw [hab] at h1; cases h1
        | lt =>
          rw [hab] at h1
          cases hbd : cmpChar b d with
          | gt => rw [hbd] at h2; cases h2
          | lt =>
            have : cmpChar a d = .lt := by
              rw [cmpChar_lt_iff] at hab hbd ⊢
              omega
            rw [this]
          | eq =>
            have hb : b = d := (cmpChar_eq_iff b d).mp hbd
            rw [← hb, hab]
        | eq =>
          have hab' : a = b := (cmpChar_eq_iff a b).mp hab
          rw [hab] at h1
          cases hbd : cmpChar b d with
          | gt => rw [hbd] at h2; cases h2
          | lt =>
            rw [hab', hbd]
          | eq =>
            have hb : b = d := (cmpChar_eq_iff b d).mp hbd
            rw [hbd] at h2
            rw [hab', hbd]
            exact ih bs ds h1 h2

theorem cmpChars_laws : CmpLaws cmpChars := by
  refine ⟨cmpChars_symm, cmpChars_lt_trans, ?_, ?_, ?_⟩
  · intro a b d h1 h2
    rw [cmpChars_eq_iff] at h2
    rw [← h2]
    exact h1
  · intro a b d h1 h2
    rw [cmpChars_eq_iff] at h1
    rw [h1]
    exact h2
  · intro a b d h1 h2
    rw [cmpChars_eq_iff] at h1 h2 ⊢
    rw [h1, h2]

theorem cmpOptNat_symm (x y : Option Nat) : cmpOptNat y x = (cmpOptNat x y).swap := by
  cases x <;> cases y
  · rfl
  · rfl
  · rfl
  · exact cmpNat_symm _ _

theorem cmpOptNat_laws : CmpLaws cmpOptNat := by
  refine ⟨cmpOptNat_symm, ?_, ?_, ?_, ?_⟩ <;>
    intro a b d h1 h2 <;>
    cases a <;> cases b <;> cases d <;>
    simp_all [cmpOptNat, cmpNat_lt_iff, cmpNat_eq_iff]
  all_goals omega

theorem cmpBool_laws : CmpLaws cmpBool := by
  refine ⟨?_, ?_, ?_, ?_, ?_⟩
  · intro a b
    cases a <;> cases b <;> rfl
  all_goals
    intro a b d h1 h2
    cases a <;> cases b <;> cases d <;> simp_all [cmpBool]

/-- Lexicographic combination of two comparators (the `Ordering::then`
pattern of the `Extension` sort arm, and the directories-before-files
prefix of the whole comparator). -/
def cmpLex {α : Type} (c1 c2 : α → α → Ordering) (a b : α) : Ordering :=
  match c1 a b with
  | .eq => c2 a b
  | o => o

theorem cmpLex_laws {α : Type} {c1 c2 : α → α → Ordering}
    (h1 : CmpLaws c1) (h2 : CmpLaws c2) : CmpLaws (cmpLex c1 c2) := by
  refine ⟨?_, ?_, ?_, ?_, ?_⟩
  · intro a b
    have hs := h1.symm a b
    cases hv : c1 a b <;>
      simp [cmpLex, hv, hs, Ordering.swap, h2.symm a b]
  · intro a b d hab hbd
    cases hv1 : c1 a b <;> cases hv2 : c1 b d <;>
      simp only [cmpLex, hv1, hv2] at hab hbd ⊢
    · rw [h1.lt_trans a b d hv1 hv2]
    · rw [h1.lt_of_lt_of_eq a b d hv1 hv2]
    · cases hbd
    · rw [h1.lt_of_eq_of_lt a b d hv1 hv2]
    · rw [h1.eq_trans a b d hv1 hv2]
      exact h2.lt_trans a b d hab hbd
    · cases hbd
    · cases hab
    · cases hab
    · cases hab
  · intro a b d hab hbd
    cases hv1 : c1 a b <;> cases hv2 : c1 b d <;>
      simp only [cmpLex, hv1, hv2] at hab hbd ⊢
    · cases hbd
    · rw [h1.lt_of_lt_of_eq a b d hv1 hv2]
    · cases hbd
    · cases hbd
    · rw [h1.eq_trans a b d hv1 hv2]
      exact h2.lt_of_lt_of_eq a b d hab hbd
    · cases hbd
    · cases hab
    · cases hab
    · cases hab
  · intro a b d hab hbd
    cases hv1 : c1 a b <;> cases hv2 : c1 b d <;>
      simp only [cmpLex, hv1, hv2] at hab hbd ⊢
    · cases hab
    · cases hab
    · cases hab
    · rw [h1.lt_of_eq_of_lt a b d hv1 hv2]
    · rw [h1.eq_trans a b d hv1 hv2]
      exact h2.lt_of_eq_of_lt a b d hab hbd
    · cases hbd
    · cases hab
    · cases hab
    · cases hab
  · intro a b d hab hbd
    cases hv1 : c1 a b <;> cases hv2 : c1 b d <;>
      simp only [cmpLex, hv1, hv2] at hab hbd ⊢
    · cases hab
    · cases hab
    · cases hab
    · cases hbd
    · rw [h1.eq_trans a b d hv1 hv2]
      exact h2.eq_trans a b d hab hbd
    · cases hbd
    · cases hab
    · cases hab
    · cases hab

theorem cmpLaws_pullback {α β : Type} {c : β → β → Ordering} (f : α → β)
    (h : CmpLaws c) : CmpLaws (fun a b => c (f a) (f b)) := by
  refine ⟨?_, ?_, ?_, ?_, ?_⟩
  · intro a b
    exact h.symm (f a) (f b)
  · intro a b d
    exact h.lt_trans (f a) (f b) (f d)
  · intro a b d
    exact h.lt_of_lt_of_eq (f a) (f b) (f d)
  · intro a b d
    exact h.lt_of_eq_of_lt (f a) (f b) (f d)
  · intro a b d
    exact h.eq_trans (f a) (f b) (f d)

theorem cmpLaws_flip {α : Type} {c : α → α → Ordering}
    (h : CmpLaws c) : CmpLaws (fun a b => c b a) := by
  refine ⟨?_, ?_, ?_, ?_, ?_⟩
  · intro a b
    exact h.symm b a
  · intro a b d hab hbd
    exact h.lt_trans d b a hbd hab
  · intro a b d hab hbd
    exact h.lt_of_eq_of_lt d b a hbd hab
  · intro a b d hab hbd
    exact h.lt_of_lt_of_eq d b a hbd hab
  · intro a b d hab hbd
    exact h.eq_trans d b a hbd hab

theorem cmpLaws_congr {α : Type} {c c' : α → α → Ordering}
    (hpt : ∀ a b, c a b = c' a b) (h : CmpLaws c') : CmpLaws c := by
  refine ⟨?_, ?_, ?_, ?_, ?_⟩
  · intro a b
    rw [hpt, hpt]
    exact h.symm a b
  · intro a b d h1 h2
    rw [hpt] at h1 h2 ⊢
    exact h.lt_trans a b d h1 h2
  · intro a b d h1 h2
    rw [hpt] at h1 h2 ⊢
    exact h.lt_of_lt_of_eq a b d h1 h2
  · intro a b d h1 h2
    rw [hpt] at h1 h2 ⊢
    exact h.lt_of_eq_of_lt a b d h1 h2
  · intro a b d h1 h2
    rw [hpt] at h1 h2 ⊢
    exact h.eq_trans a b d h1 h2

/-- The per-key part of the `sort_entries` comparator. -/
def keyCmp (sort_by : SortBy) (a b : FileEntry) : Ordering :=
  match sort_by with
  | .name => cmpChars (lowerChars a.name) (lowerChars b.name)
  | .size => cmpNat b.size a.size
  | .date => cmpOptNat b.modified a.modified
  | .extension =>
    cmpLex (fun x y => cmpChars (extLower x.name) (extLower y.name))
      (fun x y => cmpChars (lowerChars x.name) (lowerChars y.name)) a b

theorem cmpEntries_eq_lex (sort_by : SortBy) (a b : FileEntry) :
    cmpEntries sort_by a b
      = cmpLex (fun x y => cmpBool y.is_dir x.is_dir) (keyCmp sort_by) a b := by
  unfold cmpEntries cmpLex keyCmp
  simp only []
  cases hv : cmpBool b.is_dir a.is_dir <;> cases sort_by <;> rfl

theorem keyCmp_laws (sort_by : SortBy) : CmpLaws (keyCmp sort_by) := by
  cases sort_by
  · exact cmpLaws_pullback (fun e : FileEntry => lowerChars e.name) cmpChars_laws
  · exact cmpLaws_flip (cmpLaws_pullback (fun e : FileEntry => e.size) cmpNat_laws)
  · exact cmpLaws_flip (cmpLaws_pullback (fun e : FileEntry => e.modified) cmpOptNat_laws)
  · exact cmpLex_laws (cmpLaws_pullback (fun e : FileEntry => extLower e.name) cmpChars_laws)
      (cmpLaws_pullback (fun e : FileEntry => lowerChars e.name) cmpChars_laws)

theorem cmpEntries_laws (sort_by : SortBy) : CmpLaws (cmpEntries sort_by) :=
  cmpLaws_congr (cmpEntries_eq_lex sort_by)
    (cmpLex_laws (cmpLaws_flip (cmpLaws_pullback (fun e : FileEntry => e.is_dir) cmpBool_laws))
      (keyCmp_laws sort_by))

theorem CmpLaws.isLE_trans {α : Type} {c : α → α → Ordering} (h : CmpLaws c)
    (a b d : α) : (c a b).isLE = true → (c b d).isLE = true → (c a d).isLE = true := by
  intro h1 h2
  cases hv1 : c a b with
  | gt =>
    rw [hv1] at h1
    simp [Ordering.isLE] at h1
  | lt =>
    cases hv2 : c b d with
    | gt =>
      rw [hv2] at h2
      simp [Ordering.isLE] at h2
    | lt =>
      rw [h.lt_trans a b d hv1 hv2]
      rfl
    | eq =>
      rw [h.lt_of_lt_of_eq a b d hv1 hv2]
      rfl
  | eq =>
    cases hv2 : c b d with
    | gt =>
      rw [hv2] at h2
      simp [Ordering.isLE] at h2
    | lt =>
      rw [h.lt_of_eq_of_lt a b d hv1 hv2]
      rfl
    | eq =>
      rw [h.eq_trans a b d hv1 hv2]
      rfl

theorem CmpLaws.isLE_total {α : Type} {c : α → α → Ordering} (h : CmpLaws c)
    (a b : α) : (c a b).isLE = true ∨ (c b a).isLE = true := by
  cases hv : c a b with
  | lt =>
    left
    rfl
  | eq =>
    left
    rfl
  | gt =>
    right
    rw [h.symm a b, hv]
    rfl

theorem entryLE_trans (sort_by : SortBy) (a b d : FileEntry) :
    entryLE sort_by a b → entryLE sort_by b d → entryLE sort_by a d :=
  CmpLaws.isLE_trans (cmpEntries_laws sort_by) a b d

theorem entryLE_total (sort_by : SortBy) (a b : FileEntry) :
    entryLE sort_by a b ∨ entryLE sort_by b a :=
  CmpLaws.isLE_total (cmpEntries_laws sort_by) a b

theorem entryLE_dirs_first (sort_by : SortBy) (a b : FileEntry)
    (hle : entryLE sort_by a b) (hb : b.is_dir = true) : a.is_dir = true := by
  cases ha : a.is_dir
  · unfold entryLE cmpEntries at hle
    rw [hb, ha] at hle
    simp [cmpBool, Ordering.isLE] at hle
  · rfl

theorem sort_entries_sorted (sort_by : SortBy) (l : List FileEntry) :
    List.Sorted (entryLE sort_by) (sort_entries sort_by l) := by
  haveI : IsTrans FileEntry (entryLE sort_by) := ⟨fun a b d => entryLE_trans sort_by a b d⟩
  haveI : IsTotal FileEntry (entryLE sort_by) := ⟨fun a b => entryLE_total sort_by a b⟩
  exact List.sorted_insertionSort (entryLE sort_by) l

/-! ## Claim C5: the sort contract -/

/-- C5 (amended): for every sort key, sorting puts every directory before
every non-directory, the comparator is total, re-sorting a sorted list is
the identity (idempotence), the output is a permutation of the input, and
the sort is stable: any two entries whose keys compare equal keep their
original relative order.  Ties on equal keys are broken by
case-insensitive name only for the `Extension` key (where the comparator
itself falls back to the name; for `Name` the key is the name); for `Size`
and `Date` equal-key entries simply stay in input order. -/
theorem c5_sort_contract :
    (∀ (sort_by : SortBy) (l : List FileEntry),
      List.Pairwise (fun a b => b.is_dir = true → a.is_dir = true) (sort_entries sort_by l)) ∧
    (∀ (sort_by : SortBy) (a b : FileEntry), entryLE sort_by a b ∨ entryLE sort_by b a) ∧
    (∀ (sort_by : SortBy) (l : List FileEntry),
      sort_entries sort_by (sort_entries sort_by l) = sort_entries sort_by l) ∧
    (∀ (sort_by : SortBy) (l : List FileEntry), List.Perm (sort_entries sort_by l) l) ∧
    (∀ (sort_by : SortBy) (a b : FileEntry) (l : List FileEntry),
      cmpEntries sort_by a b = .eq → List.Sublist [a, b] l →
      List.Sublist [a, b] (sort_entries sort_by l)) ∧
    (∀ (a b : FileEntry), a.is_dir = b.is_dir → extLower a.name = extLower b.name →
      cmpEntries SortBy.extension a b
        = cmpChars (lowerChars a.name) (lowerChars b.name)) := by
  refine ⟨?_, entryLE_total, ?_, ?_, ?_, ?_⟩
  · intro sort_by l
    exact (sort_entries_sorted sort_by l).imp
      (fun hle hdir => entryLE_dirs_first sort_by _ _ hle hdir)
  · intro sort_by l
    exact List.Sorted.insertionSort_eq (sort_entries_sorted sort_by l)
  · intro sort_by l
    exact List.perm_insertionSort (entryLE sort_by) l
  · intro sort_by a b l hcmp hsub
    have hr : entryLE sort_by a b := by
      unfold entryLE
      rw [hcmp]
      rfl
    exact List.pair_sublist_insertionSort hr hsub
  · intro a b hdir hext
    have hb : cmpBool b.is_dir a.is_dir = .eq := by
      rw [hdir]
      cases b.is_dir <;> rfl
    have hx : cmpChars (extLower a.name) (extLower b.name) = .eq := by
      rw [hext, cmpChars_eq_iff]
    simp only [cmpEntries, hb, hx]

/-- A plain file named `a`, size 5. -/
def entA : FileEntry :=
  { name := "a", path := ["a"], is_dir := false, is_symlink := false,
    symlink_target := none, size := 5, modified := none, git_status := none }

/-- A plain file named `b`, size 5. -/
def entB : FileEntry :=
  { name := "b", path := ["b"], is_dir := false, is_symlink := false,
    symlink_target := none, size := 5, modified := none, git_status := none }

/-- C5 (counterexample): under the `Size` key, two files with equal size
are NOT reordered by name: `[b, a]` (both size 5) stays `[b, a]` although
`a`'s name sorts strictly before `b`'s.  The `Size` and `Date` comparator
arms have no name tie-break, so "ties on equal sort keys are broken by
name" is false as stated for every sort key. -/
theorem c5_counterexample :
    sort_entries SortBy.size [entB, entA] = [entB, entA] ∧
    entB.size = entA.size ∧ entB.is_dir = entA.is_dir ∧
    cmpChars (lowerChars entA.name) (lowerChars entB.name) = .lt := by
  refine ⟨by decide, by decide, by decide, by decide⟩

/-- Witness for `c5_sort_contract`: the stability conjunct applied to the
concrete equal-size pair, plus idempotence at a concrete list. -/
theorem c5_sort_contract_witness :
    List.Sublist [entB, entA] (sort_entries SortBy.size [entB, entA]) ∧
    sort_entries SortBy.size (sort_entries SortBy.size [entB, entA])
      = sort_entries SortBy.size [entB, entA] := by
  constructor
  · exact c5_sort_contract.2.2.2.2.1 SortBy.size entB entA [entB, entA]
      (by decide) (by decide)
  · exact c5_sort_contract.2.2.1 SortBy.size [entB, entA]

/-! ## `Tab` and `apply_filter` from `src/app.rs` -/

/-- Per-tab state from `src/app.rs` (`Tab`).  The presentation-only fields
(`parent_entries`, `parent_cursor`, `preview_lines`, `git_statuses`) and
the tree-view fields are owned by external collaborators or not touched by
the modelled claims and are omitted. -/
structure Tab where
  current_dir : VPath
  entries : List FileEntry
  filtered_entries : List Nat
  cursor : Nat
  show_hidden : Bool
  sort_by : SortBy
  selected : List VPath
  filter_text : String
deriving Repr

/-- `Tab::apply_filter` from `src/app.rs`, with the external
`SkimMatcherV2::fuzzy_match` abstracted as a boolean `matcher` predicate
(`matcher name query` models `fuzzy_match(name, query).is_some()`): filter
the enumerated entries by the matcher, keep their indices, and clamp the
cursor into range (`saturating_sub`). -/
def Tab.apply_filter (matcher : String → String → Bool) (t : Tab) : Tab :=
  let filtered :=
    if t.filter_text ≠ "" then
      (t.entries.enum.filter (fun ie => matcher ie.2.name t.filter_text)).map
        (fun ie => ie.1)
    else
      List.range t.entries.length
  let cursor := if filtered.length ≤ t.cursor then filtered.length - 1 else t.cursor
  { t with filtered_entries := filtered, cursor := cursor }

/-! ## Claim C4: `filtered_indices` is an increasing subsequence -/

/-- C4: for every matcher, filter text and tab, after `apply_filter` the
field `filtered_entries` is a subsequence of `0, 1, ..., entries.length - 1`
(hence strictly increasing and order-preserving: entries are never
reordered by match quality), and when the filter text is empty it is
exactly the full index sequence. -/
theorem c4_filtered_indices (matcher : String → String → Bool) (t : Tab) :
    List.Sublist (t.apply_filter matcher).filtered_entries
        (List.range t.entries.length) ∧
    List.Pairwise (fun i j => i < j) (t.apply_filter matcher).filtered_entries ∧
    (∀ i ∈ (t.apply_filter matcher).filtered_entries, i < t.entries.length) ∧
    (t.filter_text = "" →
      (t.apply_filter matcher).filtered_entries = List.range t.entries.length) := by
  have hsub : List.Sublist (t.apply_filter matcher).filtered_entries
      (List.range t.entries.length) := by
    unfold Tab.apply_filter
    by_cases hft : t.filter_text = ""
    · simp [hft]
    · simp only [hft, ne_eq, not_false_eq_true, if_true, ite_true]
      have h1 : List.Sublist
          (t.entries.enum.filter (fun ie => matcher ie.2.name t.filter_text))
          t.entries.enum := List.filter_sublist _
      have h2 := List.Sublist.map (fun ie : Nat × FileEntry => ie.1) h1
      have h3 : (t.entries.enum.map (fun ie : Nat × FileEntry => ie.1))
          = List.range t.entries.length := by
        rw [← List.enum_map_fst]
      rw [h3] at h2
      simpa using h2
  refine ⟨hsub, ?_, ?_, ?_⟩
  · exact List.Pairwise.sublist hsub (List.pairwise_lt_range _)
  · intro i hi
    have := hsub.subset hi
    exact List.mem_range.mp this
  · intro hft
    unfold Tab.apply_filter
    simp [hft]

/-- A concrete tab used by witnesses. -/
def tab0 : Tab :=
  { current_dir := ["d"], entries := [entA, entB], filtered_entries := [0, 1],
    cursor := 0, show_hidden := false, sort_by := SortBy.name, selected := [],
    filter_text := "" }

/-- Witness for `c4_filtered_indices` at a concrete matcher and tab. -/
theorem c4_filtered_indices_witness :
    List.Sublist (tab0.apply_filter (fun _ _ => true)).filtered_entries
        (List.range tab0.entries.length) ∧
    List.Pairwise (fun i j => i < j) (tab0.apply_filter (fun _ _ => true)).filtered_entries ∧
    (∀ i ∈ (tab0.apply_filter (fun _ _ => true)).filtered_entries, i < tab0.entries.length) ∧
    (tab0.filter_text = "" →
      (tab0.apply_filter (fun _ _ => true)).filtered_entries
        = List.range tab0.entries.length) :=
  c4_filtered_indices (fun _ _ => true) tab0

/-! ## Claim C3: the cursor invariant -/

/-- Model of `Iterator::position`. -/
def listPosition {α : Type} (p : α → Bool) : List α → Option Nat
  | [] => none
  | a :: as => if p a then some 0 else (listPosition p as).map (fun n => n + 1)

theorem listPosition_lt_length {α : Type} {p : α → Bool} {l : List α} {i : Nat}
    (h : listPosition p l = some i) : i < l.length := by
  induction l generalizing i with
  | nil => cases h
  | cons a as ih =>
    unfold listPosition at h
    by_cases hp : p a
    · rw [if_pos hp] at h
      cases h
      simp
    · rw [if_neg hp] at h
      cases hv : listPosition p as with
      | none => rw [hv] at h; cases h
      | some j =>
        rw [hv] at h
        cases h
        have := ih hv
        simp only [List.length_cons]
        omega

/-- `Tab::selected_entry`. -/
def Tab.selected_entry (t : Tab) : Option FileEntry :=
  (t.filtered_entries[t.cursor]?).bind (fun i => t.entries[i]?)

/-- `Tab::visible_entries`. -/
def Tab.visible_entries (t : Tab) : List FileEntry :=
  t.filtered_entries.filterMap (fun i => t.entries[i]?)

/-- The successful body of `Tab::refresh`: replace the entries with the
(new) sorted listing, tag each entry with its git status from the external
status provider, and re-apply the filter.  The parent listing and preview
recomputation touch only omitted presentation fields. -/
def Tab.refreshWith (matcher : String → String → Bool)
    (statuses : String → Option GitFileStatus) (raw : List FileEntry) (t : Tab) : Tab :=
  let entries := (sort_entries t.sort_by raw).map
    (fun e => { e with git_status := statuses e.name })
  Tab.apply_filter matcher { t with entries := entries }

/-- One navigation / filter / refresh / mouse operation on a `Tab`, as
dispatched by `App::handle_normal_key`, `App::handle_filter_key` and
`App::handle_mouse` in `src/app.rs`.  Operations that re-read the
directory carry the listing the filesystem returns (`refreshOk`) or
represent the early-returning error path (`refreshErr`). -/
inductive TabOp where
  | moveDown
  | moveUp
  | gotoTop
  | gotoBottom
  | setFilter (text : String)
  | clearFilter
  | refreshOk (statuses : String → Option GitFileStatus) (raw : List FileEntry)
  | refreshErr
  | click (file_row : Nat)
  | scrollDown
  | scrollUp
  | selectAdvance
  | enterOk (statuses : String → Option GitFileStatus) (raw : List FileEntry)
  | enterErr
  | goUpOk (statuses : String → Option GitFileStatus) (raw : List FileEntry)
  | goUpErr

/-- The effect of each operation on the tab, translated from the
corresponding handler arm in `src/app.rs`. -/
def stepTab (matcher : String → String → Bool) (t : Tab) : TabOp → Tab
  | .moveDown =>
    if t.cursor < t.filtered_entries.length - 1 then { t with cursor := t.cursor + 1 } else t
  | .moveUp =>
    if 0 < t.cursor then { t with cursor := t.cursor - 1 } else t
  | .gotoTop => { t with cursor := 0 }
  | .gotoBottom => { t with cursor := t.filtered_entries.length - 1 }
  | .setFilter text => Tab.apply_filter matcher { t with filter_text := text }
  | .clearFilter => Tab.apply_filter matcher { t with filter_text := "" }
  | .refreshOk statuses raw => Tab.refreshWith matcher statuses raw t
  | .refreshErr => t
  | .click file_row =>
    if file_row < t.filtered_entries.length then { t with cursor := file_row } else t
  | .scrollDown =>
    if t.cursor < t.filtered_entries.length - 1 then { t with cursor := t.cursor + 1 } else t
  | .scrollUp =>
    if 0 < t.cursor then { t with cursor := t.cursor - 1 } else t
  | .selectAdvance =>
    match t.selected_entry with
    | none => t
    | some e =>
      let t2 := { t with selected :=
        if t.selected.contains e.path then t.selected.erase e.path else e.path :: t.selected }
      if t2.cursor < t2.filtered_entries.length - 1 then { t2 with cursor := t2.cursor + 1 }
      else t2
  | .enterOk statuses raw =>
    match t.selected_entry with
    | some e =>
      if e.is_dir then
        Tab.refreshWith matcher statuses raw { t with current_dir := e.path, cursor := 0 }
      else t
    | none => t
  | .enterErr =>
    match t.selected_entry with
    | some e =>
      if e.is_dir then { t with current_dir := e.path, cursor := 0 } else t
    | none => t
  | .goUpOk statuses raw =>
    if t.current_dir = [] then t
    else
      let old_name := lastName t.current_dir
      let t2 := Tab.refreshWith matcher statuses raw
        { t with current_dir := t.current_dir.dropLast, cursor := 0 }
      match listPosition (fun e => e.name == old_name) t2.visible_entries with
      | some pos => { t2 with cursor := pos }
      | none => t2
  | .goUpErr =>
    if t.current_dir = [] then t
    else { t with current_dir := t.current_dir.dropLast, cursor := 0 }

/-- The cursor invariant of the specification: the cursor is in range when
the filtered view is non-empty and pinned to 0 when it is empty. -/
def TabInv (t : Tab) : Prop :=
  (t.filtered_entries.length = 0 → t.cursor = 0) ∧
  (0 < t.filtered_entries.length → t.cursor < t.filtered_entries.length)

theorem clamp_inv (L : List Nat) (c : Nat) :
    (L.length = 0 → (if L.length ≤ c then L.length - 1 else c) = 0) ∧
    (0 < L.length → (if L.length ≤ c then L.length - 1 else c) < L.length) := by
  constructor
  · intro h0
    rw [h0]
    simp
  · intro hpos
    split <;> omega

theorem apply_filter_inv (matcher : String → String → Bool) (t : Tab) :
    TabInv (t.apply_filter matcher) := by
  unfold TabInv Tab.apply_filter
  dsimp only
  exact clamp_inv _ _

theorem TabInv_set_cursor (t : Tab) (c : Nat)
    (h1 : t.filtered_entries.length = 0 → c = 0)
    (h2 : 0 < t.filtered_entries.length → c < t.filtered_entries.length) :
    TabInv { t with cursor := c } :=
  ⟨h1, h2⟩

theorem stepTab_inv (matcher : String → String → Bool) (t : Tab) (op : TabOp)
    (h : TabInv t) : TabInv (stepTab matcher t op) := by
  obtain ⟨h0, hlt⟩ := h
  cases op with
  | moveDown =>
    unfold stepTab
    dsimp only
    by_cases hc : t.cursor < t.filtered_entries.length - 1
    · rw [if_pos hc]
      exact TabInv_set_cursor t _ (fun hz => by omega) (fun hp => by omega)
    · rw [if_neg hc]
      exact ⟨h0, hlt⟩
  | moveUp =>
    unfold stepTab
    dsimp only
    by_cases hc : 0 < t.cursor
    · rw [if_pos hc]
      exact TabInv_set_cursor t _ (fun hz => by omega) (fun hp => by
        have := hlt hp
        omega)
    · rw [if_neg hc]
      exact ⟨h0, hlt⟩
  | gotoTop =>
    exact TabInv_set_cursor t 0 (fun _ => rfl) (fun hp => hp)
  | gotoBottom =>
    exact TabInv_set_cursor t _ (fun hz => by omega) (fun hp => by omega)
  | setFilter text => exact apply_filter_inv matcher _
  | clearFilter => exact apply_filter_inv matcher _
  | refreshOk statuses raw =>
    unfold stepTab Tab.refreshWith
    dsimp only
    exact apply_filter_inv matcher _
  | refreshErr => exact ⟨h0, hlt⟩
  | click file_row =>
    unfold stepTab
    dsimp only
    by_cases hc : file_row < t.filtered_entries.length
    · rw [if_pos hc]
      exact TabInv_set_cursor t _ (fun hz => by omega) (fun _ => hc)
    · rw [if_neg hc]
      exact ⟨h0, hlt⟩
  | scrollDown =>
    unfold stepTab
    dsimp only
    by_cases hc : t.cursor < t.filtered_entries.length - 1
    · rw [if_pos hc]
      exact TabInv_set_cursor t _ (fun hz => by omega) (fun hp => by omega)
    · rw [if_neg hc]
      exact ⟨h0, hlt⟩
  | scrollUp =>
    unfold stepTab
    dsimp only
    by_cases hc : 0 < t.cursor
    · rw [if_pos hc]
      exact TabInv_set_cursor t _ (fun hz => by omega) (fun hp => by
        have := hlt hp
        omega)
    · rw [if_neg hc]
      exact ⟨h0, hlt⟩
  | selectAdvance =>
    unfold stepTab
    dsimp only
    cases hsel : t.selected_entry with
    | none => exact ⟨h0, hlt⟩
    | some e =>
      dsimp only
      by_cases hc : t.cursor < t.filtered_entries.length - 1
      · rw [if_pos hc]
        exact ⟨fun hz => by
          have hz2 : t.filtered_entries.length = 0 := hz
          omega,
          fun hp => by
            have hp2 : 0 < t.filtered_entries.length := hp
            show t.cursor + 1 < t.filtered_entries.length
            omega⟩
      · rw [if_neg hc]
        exact ⟨fun hz => h0 hz, fun hp => hlt hp⟩
  | enterOk statuses raw =>
    unfold stepTab
    dsimp only
    cases hsel : t.selected_entry with
    | none => exact ⟨h0, hlt⟩
    | some e =>
      dsimp only
      by_cases hd : e.is_dir = true
      · rw [if_pos hd]
        unfold Tab.refreshWith
        exact apply_filter_inv matcher _
      · rw [if_neg hd]
        exact ⟨h0, hlt⟩
  | enterErr =>
    unfold stepTab
    dsimp only
    cases hsel : t.selected_entry with
    | none => exact ⟨h0, hlt⟩
    | some e =>
      dsimp only
      by_cases hd : e.is_dir = true
      · rw [if_pos hd]
        exact ⟨fun _ => rfl, fun hp => hp⟩
      · rw [if_neg hd]
        exact ⟨h0, hlt⟩
  | goUpOk statuses raw =>
    unfold stepTab
    dsimp only
    by_cases hroot : t.current_dir = []
    · rw [if_pos hroot]
      exact ⟨h0, hlt⟩
    · rw [if_neg hroot]
      have ht2 : TabInv (Tab.refreshWith matcher statuses raw
          { t with current_dir := t.current_dir.dropLast, cursor := 0 }) := by
        unfold Tab.refreshWith
        exact apply_filter_inv matcher _
      obtain ⟨g0, glt⟩ := ht2
      cases hpos : listPosition (fun e => e.name == lastName t.current_dir)
          (Tab.refreshWith matcher statuses raw
            { t with current_dir := t.current_dir.dropLast, cursor := 0 }).visible_entries with
      | none =>
        show TabInv (Tab.refreshWith matcher statuses raw
          { t with current_dir := t.current_dir.dropLast, cursor := 0 })
        exact ⟨g0, glt⟩
      | some pos =>
        have hlt1 := listPosition_lt_length hpos
        have hlt2 := List.length_filterMap_le
          (fun i => (Tab.refreshWith matcher statuses raw
            { t with current_dir := t.current_dir.dropLast, cursor := 0 }).entries[i]?)
          (Tab.refreshWith matcher statuses raw
            { t with current_dir := t.current_dir.dropLast, cursor := 0 }).filtered_entries
        unfold Tab.visible_entries at hlt1
        show TabInv { (Tab.refreshWith matcher statuses raw
          { t with current_dir := t.current_dir.dropLast, cursor := 0 }) with cursor := pos }
        exact TabInv_set_cursor _ _ (fun hz => by omega) (fun hp => by omega)
  | goUpErr =>
    unfold stepTab
    dsimp only
    by_cases hroot : t.current_dir = []
    · rw [if_pos hroot]
      exact ⟨h0, hlt⟩
    · rw [if_neg hroot]
      exact ⟨fun _ => rfl, fun hp => hp⟩

/-- C3: after any sequence of navigation, filter, refresh, mouse or
enter/go-up operations starting from a tab satisfying the cursor
invariant, the invariant still holds: `cursor < filtered_entries.length`
whenever `filtered_entries` is non-empty, and `cursor = 0` when it is
empty.  (Tab switches in the session change which tab is active but mutate
no tab, so the per-tab invariant is unaffected by them.) -/
theorem c3_cursor_invariant (matcher : String → String → Bool) (t : Tab)
    (ops : List TabOp) (h : TabInv t) :
    TabInv (List.foldl (stepTab matcher) t ops) := by
  induction ops generalizing t with
  | nil => exact h
  | cons op rest ih => exact ih _ (stepTab_inv matcher t op h)

/-- Witness for `c3_cursor_invariant`: a concrete tab and operation
sequence. -/
theorem c3_cursor_invariant_witness :
    TabInv (List.foldl (stepTab (fun _ _ => true)) tab0
      [TabOp.moveDown, TabOp.gotoBottom, TabOp.setFilter "a", TabOp.scrollUp]) :=
  c3_cursor_invariant (fun _ _ => true) tab0
    [TabOp.moveDown, TabOp.gotoBottom, TabOp.setFilter "a", TabOp.scrollUp]
    (by constructor <;> intro <;> simp_all [tab0])

/-! ## Claim C7: the session's tab invariant -/

/-- The tab container of `App` from `src/app.rs`: the ordered tabs and the
active index.  The tab contents are irrelevant to the invariant, so the
element type is a parameter. -/
structure Session (τ : Type) where
  tabs : List τ
  active_tab : Nat

/-- `App::new_tab`: building the fresh tab (`Tab::new`) can fail, in which
case the `?` operator returns before the session is touched; on success
the active index is incremented first and the tab inserted there, so the
new tab lands immediately after the previously active one and becomes
active. -/
def new_tab {τ : Type} (s : Session τ) (created : Option τ) : Session τ :=
  match created with
  | none => s
  | some t =>
    { tabs := s.tabs.insertIdx (s.active_tab + 1) t, active_tab := s.active_tab + 1 }

/-- `App::close_tab`: `true` means "quit the application" (only remaining
tab); otherwise the active tab is removed and the index clamped. -/
def close_tab {τ : Type} (s : Session τ) : Session τ × Bool :=
  if s.tabs.length ≤ 1 then (s, true)
  else
    let tabs := s.tabs.eraseIdx s.active_tab
    let active := if tabs.length ≤ s.active_tab then tabs.length - 1 else s.active_tab
    ({ tabs := tabs, active_tab := active }, false)

/-- `App::next_tab`. -/
def next_tab {τ : Type} (s : Session τ) : Session τ :=
  if s.tabs.isEmpty then s
  else { s with active_tab := (s.active_tab + 1) % s.tabs.length }

/-- `App::prev_tab`. -/
def prev_tab {τ : Type} (s : Session τ) : Session τ :=
  if s.tabs.isEmpty then s
  else { s with active_tab :=
    if s.active_tab = 0 then s.tabs.length - 1 else s.active_tab - 1 }

/-- Direct tab switch (Alt+digit, and the tab-bar mouse click): guarded by
`idx < tabs.len()`. -/
def switch_tab {τ : Type} (s : Session τ) (idx : Nat) : Session τ :=
  if idx < s.tabs.length then { s with active_tab := idx } else s

/-- A tab operation on the session. -/
inductive SessOp (τ : Type) where
  | newTab (created : Option τ)
  | closeTab
  | nextTab
  | prevTab
  | switchTo (idx : Nat)

/-- Apply one tab operation (for `closeTab` the quit flag is dropped: on
quit the source leaves the session untouched). -/
def stepSess {τ : Type} (s : Session τ) : SessOp τ → Session τ
  | .newTab created => new_tab s created
  | .closeTab => (close_tab s).1
  | .nextTab => next_tab s
  | .prevTab => prev_tab s
  | .switchTo idx => switch_tab s idx

/-- The session invariant: the active index addresses an existing tab
(which also forces the tab list to be non-empty). -/
def SessInv {τ : Type} (s : Session τ) : Prop :=
  s.active_tab < s.tabs.length

theorem getElem?_insertIdx_self {τ : Type} (l : List τ) (n : Nat) (a : τ)
    (h : n ≤ l.length) : (l.insertIdx n a)[n]? = some a := by
  induction l generalizing n with
  | nil =>
    cases n with
    | zero => rfl
    | succ m => simp at h
  | cons b rest ih =>
    cases n with
    | zero => rfl
    | succ m =>
      simp only [List.insertIdx_succ_cons, List.getElem?_cons_succ]
      exact ih m (by simpa using h)

theorem stepSess_inv {τ : Type} (s : Session τ) (op : SessOp τ)
    (h : SessInv s) : SessInv (stepSess s op) := by
  cases op with
  | newTab created =>
    cases created with
    | none => exact h
    | some t =>
      unfold stepSess new_tab SessInv at *
      dsimp only
      rw [List.length_insertIdx (s.active_tab + 1) s.tabs (by omega)]
      omega
  | closeTab =>
    unfold stepSess close_tab SessInv at *
    by_cases hle : s.tabs.length ≤ 1
    · rw [if_pos hle]
      exact h
    · rw [if_neg hle]
      dsimp only
      rw [List.length_eraseIdx s.tabs s.active_tab] at *
      rw [if_pos h]
      split <;> omega
  | nextTab =>
    unfold stepSess next_tab SessInv at *
    by_cases he : s.tabs.isEmpty
    · rw [if_pos he]
      exact h
    · rw [if_neg he]
      dsimp only
      exact Nat.mod_lt _ (by omega)
  | prevTab =>
    unfold stepSess prev_tab SessInv at *
    by_cases he : s.tabs.isEmpty
    · rw [if_pos he]
      exact h
    · rw [if_neg he]
      dsimp only
      split <;> omega
  | switchTo idx =>
    unfold stepSess switch_tab SessInv at *
    dsimp only
    by_cases hi : idx < s.tabs.length
    · rw [if_pos hi]
      exact hi
    · rw [if_neg hi]
      exact h

/-- C7: `active_tab_index < tabs.len()` holds after every sequence of tab
operations; `new_tab` inserts the created tab immediately after the active
index and makes it active; `close_tab` on the only remaining tab returns
the quit signal with the session (and so the collection) untouched;
`close_tab` on a larger session removes the active tab and clamps the
index. -/
theorem c7_session_invariant :
    (∀ (τ : Type) (s : Session τ) (ops : List (SessOp τ)),
      SessInv s → SessInv (List.foldl stepSess s ops)) ∧
    (∀ (τ : Type) (s : Session τ) (t : τ), SessInv s →
      (new_tab s (some t)).active_tab = s.active_tab + 1 ∧
      ((new_tab s (some t)).tabs)[s.active_tab + 1]? = some t ∧
      (new_tab s (some t)).tabs.length = s.tabs.length + 1) ∧
    (∀ (τ : Type) (s : Session τ), s.tabs.length ≤ 1 → close_tab s = (s, true)) ∧
    (∀ (τ : Type) (s : Session τ), SessInv s → 2 ≤ s.tabs.length →
      (close_tab s).2 = false ∧
      (close_tab s).1.tabs = s.tabs.eraseIdx s.active_tab ∧
      (close_tab s).1.tabs.length = s.tabs.length - 1 ∧
      SessInv (close_tab s).1) := by
  refine ⟨?_, ?_, ?_, ?_⟩
  · intro τ s ops h
    induction ops generalizing s with
    | nil => exact h
    | cons op rest ih => exact ih _ (stepSess_inv s op h)
  · intro τ s t h
    unfold new_tab
    refine ⟨rfl, ?_, ?_⟩
    · exact getElem?_insertIdx_self s.tabs (s.active_tab + 1) t (by
        unfold SessInv at h
        omega)
    · exact List.length_insertIdx (s.active_tab + 1) s.tabs (by
        unfold SessInv at h
        omega)
  · intro τ s hle
    unfold close_tab
    rw [if_pos hle]
  · intro τ s h h2
    unfold SessInv at h
    unfold close_tab
    rw [if_neg (by omega)]
    have hlen : (s.tabs.eraseIdx s.active_tab).length = s.tabs.length - 1 := by
      rw [List.length_eraseIdx s.tabs s.active_tab, if_pos h]
    refine ⟨rfl, rfl, hlen, ?_⟩
    unfold SessInv
    dsimp only
    rw [hlen]
    split <;> omega

/-- Witness for `c7_session_invariant` at a concrete session over `Nat`
tabs. -/
theorem c7_session_invariant_witness :
    SessInv (List.foldl stepSess ({ tabs := [7], active_tab := 0 } : Session Nat)
      [SessOp.newTab (some 8), SessOp.nextTab, SessOp.closeTab, SessOp.prevTab]) ∧
    close_tab ({ tabs := [7], active_tab := 0 } : Session Nat)
      = ({ tabs := [7], active_tab := 0 }, true) := by
  constructor
  · exact c7_session_invariant.1 Nat { tabs := [7], active_tab := 0 }
      [SessOp.newTab (some 8), SessOp.nextTab, SessOp.closeTab, SessOp.prevTab]
      (by unfold SessInv; decide)
  · exact c7_session_invariant.2.2.1 Nat { tabs := [7], active_tab := 0 } (by simp)

/-! ## Claim C6: the pending two-key sequences of `handle_normal_key` -/

/-- A key event, as far as the pending-sequence logic observes it. -/
inductive Key where
  | char (c : Char)
  | other
deriving DecidableEq, Repr

/-- The state `App::handle_normal_key` reads and writes through the
pending-sequence logic.  `σ` stands for every other `App`/`Tab` field
(entries, directories, stacks, ...), carried through untouched by the
modelled branches. -/
structure NState (σ : Type) where
  tree_mode : Bool
  cursor : Nat
  tree_cursor : Nat
  pending_g : Bool
  pending_d : Bool
  pending_y : Bool
  pending_p : Bool
  status_message : Option String
  rest : σ

/-- The handler arms of `handle_normal_key` that the claim's key sequences
never reach, plus the externally-effecting actions (`delete_selected`,
`yank_selected`, `paste`): abstracted as arbitrary state transformers.
The theorem below holds for every instantiation. -/
structure NEnv (σ : Type) where
  delete_selected : NState σ → NState σ
  yank_selected : NState σ → NState σ
  paste : NState σ → NState σ
  tree_key : NState σ → Key → NState σ
  other_key : NState σ → Key → NState σ

/-- `App::handle_normal_key` from `src/app.rs`, restricted to the state in
`NState`: the status message is cleared first; a pending `g`/`d`/`y`/`p`
flag consumes the key and returns early (executing its action only when
the second key repeats the first); otherwise `g`, `d`, `y`, `p` set their
pending flag and all remaining keys go to the rest of the dispatcher
(`tree_key` in tree mode, `other_key` otherwise). -/
def handle_normal_key {σ : Type} (env : NEnv σ) (s0 : NState σ) (k : Key) : NState σ :=
  let s := { s0 with status_message := none }
  if s.pending_g then
    let s := { s with pending_g := false }
    if k = Key.char 'g' then
      if s.tree_mode then { s with tree_cursor := 0 } else { s with cursor := 0 }
    else s
  else if s.pending_d then
    let s := { s with pending_d := false }
    if k = Key.char 'd' then env.delete_selected s else s
  else if s.pending_y then
    let s := { s with pending_y := false }
    if k = Key.char 'y' then env.yank_selected s else s
  else if s.pending_p then
    let s := { s with pending_p := false }
    if k = Key.char 'p' then env.paste s else s
  else if s.tree_mode then
    match k with
    | Key.char c => if c = 'g' then { s with pending_g := true } else env.tree_key s k
    | Key.other => env.tree_key s k
  else
    match k with
    | Key.char c =>
      if c = 'g' then { s with pending_g := true }
      else if c = 'd' then { s with pending_d := true }
      else if c = 'y' then { s with pending_y := true }
      else if c = 'p' then { s with pending_p := true }
      else env.other_key s k
    | Key.other => env.other_key s k

/-- C6: with no pending sequence, pressing `g` and then any key other than
`g` leaves the state exactly as it was apart from the cleared status
message — the cursor never moves to the top and nothing else happens;
pressing `g` then `g` sets the (tree) cursor to 0 and changes nothing
else.  A dangling pending `d`, `y` or `p` flag cancelled by an unrelated
key likewise only clears the flag and the status message.  All of this
holds for every instantiation of the unmodelled handler arms. -/
theorem c6_two_key_sequences :
    ∀ (σ : Type) (env : NEnv σ),
    (∀ (s : NState σ) (k : Key),
      s.pending_g = false → s.pending_d = false → s.pending_y = false →
      s.pending_p = false → k ≠ Key.char 'g' →
      handle_normal_key env (handle_normal_key env s (Key.char 'g')) k
        = { s with status_message := none }) ∧
    (∀ (s : NState σ),
      s.pending_g = false → s.pending_d = false → s.pending_y = false →
      s.pending_p = false →
      handle_normal_key env (handle_normal_key env s (Key.char 'g')) (Key.char 'g')
        = if s.tree_mode then { s with status_message := none, tree_cursor := 0 }
          else { s with status_message := none, cursor := 0 }) ∧
    (∀ (s : NState σ) (k : Key),
      s.pending_g = false → s.pending_d = true → k ≠ Key.char 'd' →
      handle_normal_key env s k = { s with pending_d := false, status_message := none }) ∧
    (∀ (s : NState σ) (k : Key),
      s.pending_g = false → s.pending_d = false → s.pending_y = true →
      k ≠ Key.char 'y' →
      handle_normal_key env s k = { s with pending_y := false, status_message := none }) ∧
    (∀ (s : NState σ) (k : Key),
      s.pending_g = false → s.pending_d = false → s.pending_y = false →
      s.pending_p = true → k ≠ Key.char 'p' →
      handle_normal_key env s k = { s with pending_p := false, status_message := none }) := by
  intro σ env
  refine ⟨?_, ?_, ?_, ?_, ?_⟩
  · intro s k hg hd hy hp hk
    have h1 : handle_normal_key env s (Key.char 'g')
        = { s with status_message := none, pending_g := true } := by
      unfold handle_normal_key
      simp only [hg, hd, hy, hp]
      cases hm : s.tree_mode <;> simp
    rw [h1]
    unfold handle_normal_key
    simp [hk, hg, hd, hy, hp]
  · intro s hg hd hy hp
    have h1 : handle_normal_key env s (Key.char 'g')
        = { s with status_message := none, pending_g := true } := by
      unfold handle_normal_key
      simp only [hg, hd, hy, hp]
      cases hm : s.tree_mode <;> simp
    rw [h1]
    unfold handle_normal_key
    cases hm : s.tree_mode <;> simp [hm, hg, hd, hy, hp]
  · intro s k hg hd hk
    unfold handle_normal_key
    simp [hg, hd, hk]
  · intro s k hg hd hy hk
    unfold handle_normal_key
    simp [hg, hd, hy, hk]
  · intro s k hg hd hy hp hk
    unfold handle_normal_key
    simp [hg, hd, hy, hp, hk]

/-- A concrete environment over a unit rest-state: every abstracted arm is
the identity on the state. -/
def env0 : NEnv Unit :=
  { delete_selected := fun s => s, yank_selected := fun s => s, paste := fun s => s,
    tree_key := fun s _ => s, other_key := fun s _ => s }

/-- A concrete normal-mode state. -/
def nstate0 : NState Unit :=
  { tree_mode := false, cursor := 3, tree_cursor := 0, pending_g := false,
    pending_d := false, pending_y := false, pending_p := false,
    status_message := some "m", rest := () }

/-- Witness for `c6_two_key_sequences`: pressing `g` then `x` cancels with
no effect beyond the cleared status message, at a concrete state. -/
theorem c6_two_key_sequences_witness :
    handle_normal_key env0 (handle_normal_key env0 nstate0 (Key.char 'g')) (Key.char 'x')
      = { nstate0 with status_message := none } :=
  (c6_two_key_sequences Unit env0).1 nstate0 (Key.char 'x') rfl rfl rfl rfl (by decide)

/-! ## Claim C9: `read_dir` from `src/app.rs` -/

/-- The metadata of a raw directory child (`std::fs::Metadata`). -/
structure RawMeta where
  is_dir : Bool
  len : Nat
  modified : Option Nat
deriving DecidableEq, Repr

/-- One item yielded by `std::fs::read_dir`: `readable = false` models an
`Err` item (skipped by the source with `continue`); `metadata = none`
models a failing `entry.metadata()` call; `file_type_symlink` is the
`file_type()` result (`none` = error, treated as not-a-symlink via
`unwrap_or(false)`); `link_target` is the `read_link` result. -/
structure RawEntry where
  readable : Bool
  name : String
  path : VPath
  metadata : Option RawMeta
  file_type_symlink : Option Bool
  link_target : Option String
deriving DecidableEq, Repr

/-- The loop body of `read_dir` from `src/app.rs`: skip unreadable
items, skip dotted names unless `show_hidden`, skip items without
metadata, and build a `FileEntry` from the rest. -/
def read_dir_entries (show_hidden : Bool) : List RawEntry → List FileEntry
  | [] => []
  | r :: rest =>
    if r.readable = false then read_dir_entries show_hidden rest
    else if !show_hidden && startsWithDot r.name then read_dir_entries show_hidden rest
    else
      match r.metadata with
      | none => read_dir_entries show_hidden rest
      | some m =>
        let is_symlink := r.file_type_symlink.getD false
        { name := r.name, path := r.path, is_dir := m.is_dir,
          is_symlink := is_symlink,
          symlink_target := if is_symlink then r.link_target else none,
          size := m.len, modified := m.modified,
          git_status := none } :: read_dir_entries show_hidden rest

/-- `read_dir` from `src/app.rs`: a failure of `fs::read_dir` itself (the
`?` operator) is the caller's error; otherwise the per-entry loop runs. -/
def read_dir (listing : Except String (List RawEntry)) (show_hidden : Bool) :
    Except String (List FileEntry) :=
  match listing with
  | .error e => .error e
  | .ok raws => .ok (read_dir_entries show_hidden raws)

/-- C9: with `show_hidden = false` no produced entry name starts with a
dot; with `show_hidden = true` every readable child with metadata appears
(dotted or not); a listing whose directory read succeeded always succeeds
regardless of per-child failures; an unreadable child or one without
metadata is skipped silently (the listing equals the listing without it);
and a failed directory read is returned as an error to the caller. -/
theorem c9_read_dir :
    (∀ (raws : List RawEntry) (e : FileEntry),
      e ∈ read_dir_entries false raws → startsWithDot e.name = false) ∧
    (∀ (raws : List RawEntry) (r : RawEntry),
      r ∈ raws → r.readable = true → r.metadata.isSome = true →
      r.name ∈ (read_dir_entries true raws).map FileEntry.name) ∧
    (∀ (raws : List RawEntry) (show_hidden : Bool),
      read_dir (.ok raws) show_hidden = .ok (read_dir_entries show_hidden raws)) ∧
    (∀ (r : RawEntry) (rest : List RawEntry) (show_hidden : Bool),
      r.readable = false ∨ r.metadata = none →
      read_dir_entries show_hidden (r :: rest) = read_dir_entries show_hidden rest) ∧
    (∀ (e : String) (show_hidden : Bool), read_dir (.error e) show_hidden = .error e) := by
  refine ⟨?_, ?_, ?_, ?_, ?_⟩
  · intro raws
    induction raws with
    | nil =>
      intro e he
      cases he
    | cons r rest ih =>
      intro e he
      unfold read_dir_entries at he
      by_cases hr : r.readable = false
      · rw [if_pos hr] at he
        exact ih e he
      · rw [if_neg hr] at he
        by_cases hdot : startsWithDot r.name = true
        · rw [if_pos (by simp [hdot])] at he
          exact ih e he
        · rw [if_neg (by simp [hdot])] at he
          cases hm : r.metadata with
          | none =>
            rw [hm] at he
            exact ih e he
          | some m =>
            rw [hm] at he
            rcases List.mem_cons.mp he with h1 | h1
            · rw [h1]
              simpa using hdot
            · exact ih e h1
  · intro raws
    induction raws with
    | nil =>
      intro r hr
      cases hr
    | cons q rest ih =>
      intro r hr hread hmeta
      unfold read_dir_entries
      rcases List.mem_cons.mp hr with h1 | h1
      · subst h1
        rw [if_neg (by simp [hread])]
        rw [if_neg (by simp)]
        cases hm : r.metadata with
        | none => simp [hm] at hmeta
        | some m => simp
      · by_cases hq : q.readable = false
        · rw [if_pos hq]
          exact ih r h1 hread hmeta
        · rw [if_neg hq]
          rw [if_neg (by simp)]
          cases hm : q.metadata with
          | none => exact ih r h1 hread hmeta
          | some m =>
            simp only [List.map_cons, List.mem_cons]
            right
            exact ih r h1 hread hmeta
  · intro raws show_hidden
    rfl
  · intro r rest show_hidden hskip
    rcases hskip with h1 | h1
    · show (if r.readable = false then read_dir_entries show_hidden rest
        else if !show_hidden && startsWithDot r.name then read_dir_entries show_hidden rest
        else
          match r.metadata with
          | none => read_dir_entries show_hidden rest
          | some m =>
            let is_symlink := r.file_type_symlink.getD false
            { name := r.name, path := r.path, is_dir := m.is_dir,
              is_symlink := is_symlink,
              symlink_target := if is_symlink then r.link_target else none,
              size := m.len, modified := m.modified,
              git_status := none } :: read_dir_entries show_hidden rest)
          = read_dir_entries show_hidden rest
      rw [if_pos h1]
    · show (if r.readable = false then read_dir_entries show_hidden rest
        else if !show_hidden && startsWithDot r.name then read_dir_entries show_hidden rest
        else
          match r.metadata with
          | none => read_dir_entries show_hidden rest
          | some m =>
            let is_symlink := r.file_type_symlink.getD false
            { name := r.name, path := r.path, is_dir := m.is_dir,
              is_symlink := is_symlink,
              symlink_target := if is_symlink then r.link_target else none,
              size := m.len, modified := m.modified,
              git_status := none } :: read_dir_entries show_hidden rest)
          = read_dir_entries show_hidden rest
      by_cases hr : r.readable = false
      · rw [if_pos hr]
      · rw [if_neg hr]
        by_cases hdot : (!show_hidden && startsWithDot r.name) = true
        · rw [if_pos hdot]
        · rw [if_neg hdot, h1]
  · intro e show_hidden
    rfl

/-- A readable, dotted raw entry with metadata. -/
def rawDot : RawEntry :=
  { readable := true, name := ".hidden", path := [".hidden"],
    metadata := some { is_dir := false, len := 3, modified := none },
    file_type_symlink := some false, link_target := none }

/-- A readable, plain raw entry with metadata. -/
def rawPlain : RawEntry :=
  { readable := true, name := "visible", path := ["visible"],
    metadata := some { is_dir := false, len := 3, modified := none },
    file_type_symlink := some false, link_target := none }

/-- Witness for `c9_read_dir` at a concrete listing: the dotted entry is
excluded when hidden files are suppressed and included when shown. -/
theorem c9_read_dir_witness :
    (∀ e ∈ read_dir_entries false [rawDot, rawPlain], startsWithDot e.name = false) ∧
    rawDot.name ∈ (read_dir_entries true [rawDot, rawPlain]).map FileEntry.name := by
  constructor
  · intro e he
    exact c9_read_dir.1 [rawDot, rawPlain] e he
  · exact c9_read_dir.2.1 [rawDot, rawPlain] rawDot (by simp) rfl rfl

/-! ## Claim C8: `search_recursive` from `src/file_ops.rs`

The directory tree under the searched directory is modelled as a rose
tree (`FNode`, with a dedicated list type `FList` so that all recursion is
structural).  File contents are the list of lines `read_to_string` +
`lines()` yields; `size` is the `metadata().len()` value the source
checks, carried separately from the lines just as in the source. -/

mutual
/-- A node of the searched directory tree. -/
inductive FNode where
  | file (name : String) (size : Nat) (lines : List String)
  | dir (name : String) (children : FList)
deriving DecidableEq, Repr
/-- The children of a directory. -/
inductive FList where
  | nil
  | cons (n : FNode) (rest : FList)
deriving DecidableEq, Repr
end

/-- The name of a node (`entry.file_name()`). -/
def FNode.fname : FNode → String
  | .file name _ _ => name
  | .dir name _ => name

/-- The nodes of an `FList`, as an ordinary list. -/
def FList.toList : FList → List FNode
  | .nil => []
  | .cons n rest => n :: rest.toList

/-- `SearchResult` from `src/file_ops.rs`. -/
structure SearchResult where
  path : VPath
  line_number : Nat
  line_text : String
deriving DecidableEq, Repr

/-- Model of `str::contains` on character lists. -/
def containsSub (hay pat : List Char) : Bool :=
  (List.range (hay.length + 1)).any (fun i => pat.isPrefixOf (hay.drop i))

/-- The line loop of `search_recursive_inner`: for each line (0-based `i`,
recorded 1-based), stop once the cap is reached, and push a result for
each line containing the (already lowercased) pattern. -/
def searchLines (path : VPath) (pat : List Char) (max_results : Nat) :
    Nat → List String → List SearchResult → List SearchResult
  | _, [], results => results
  | i, l :: ls, results =>
    if max_results ≤ results.length then results
    else
      searchLines path pat max_results (i + 1) ls
        (if containsSub (lowerChars l) pat then
          results ++ [{ path := path, line_number := i + 1, line_text := l }]
        else results)

mutual
/-- Dispatch on one directory child: a directory recurses, a file is
skipped when empty or over 1 MiB and otherwise has its lines scanned. -/
def searchNode (pat : List Char) (max_results : Nat) (pre : VPath) :
    FNode → List SearchResult → List SearchResult
  | .file name size lines, results =>
    if size > 1024 * 1024 ∨ size = 0 then results
    else searchLines (pre ++ [name]) pat max_results 0 lines results
  | .dir name children, results =>
    searchFL pat max_results (pre ++ [name]) children results
/-- The entry loop of `search_recursive_inner`: stop once the cap is
reached; skip children whose name starts with a dot. -/
def searchFL (pat : List Char) (max_results : Nat) (pre : VPath) :
    FList → List SearchResult → List SearchResult
  | .nil, results => results
  | .cons n rest, results =>
    if max_results ≤ results.length then results
    else if startsWithDot n.fname then searchFL pat max_results pre rest results
    else searchFL pat max_results pre rest (searchNode pat max_results pre n results)
end

/-- `search_recursive` from `src/file_ops.rs`: lowercase the pattern once,
then scan the tree under `dir` into an initially empty result vector. -/
def search_recursive (dir : VPath) (tree : FList) (pattern : String)
    (max_results : Nat) : List SearchResult :=
  searchFL (lowerChars pattern) max_results dir tree []

/-- The uncapped line scan. -/
def hitsLines (path : VPath) (pat : List Char) : Nat → List String → List SearchResult
  | _, [] => []
  | i, l :: ls =>
    (if containsSub (lowerChars l) pat then
      [{ path := path, line_number := i + 1, line_text := l }]
    else []) ++ hitsLines path pat (i + 1) ls

mutual
/-- The uncapped scan of one child. -/
def hitsNode (pat : List Char) (pre : VPath) : FNode → List SearchResult
  | .file name size lines =>
    if size > 1024 * 1024 ∨ size = 0 then []
    else hitsLines (pre ++ [name]) pat 0 lines
  | .dir name children => hitsFL pat (pre ++ [name]) children
/-- The uncapped scan of a child list. -/
def hitsFL (pat : List Char) (pre : VPath) : FList → List SearchResult
  | .nil => []
  | .cons n rest =>
    (if startsWithDot n.fname then [] else hitsNode pat pre n) ++ hitsFL pat pre rest
end

theorem take_append_take {α : Type} (x y : List α) (m : Nat) :
    ((x.take m) ++ y).take m = (x ++ y).take m := by
  rw [List.take_append_eq_append_take, List.take_append_eq_append_take,
    List.take_take, Nat.min_self, List.length_take]
  have harith : m - min m x.length = m - x.length := by omega
  rw [harith]

theorem searchLines_take (path : VPath) (pat : List Char) (max_results : Nat) :
    ∀ (ls : List String) (i : Nat) (acc : List SearchResult),
      acc.length ≤ max_results →
      searchLines path pat max_results i ls acc
        = (acc ++ hitsLines path pat i ls).take max_results := by
  intro ls
  induction ls with
  | nil =>
    intro i acc h
    simp [searchLines, hitsLines, List.take_of_length_le h]
  | cons l ls ih =>
    intro i acc h
    simp only [searchLines, hitsLines]
    by_cases hcap : max_results ≤ acc.length
    · rw [if_pos hcap]
      have hlen : acc.length = max_results := by omega
      rw [← hlen]
      exact (List.take_left acc _).symm
    · rw [if_neg hcap]
      by_cases hm : containsSub (lowerChars l) pat = true
      · rw [if_pos hm, if_pos hm]
        rw [ih (i + 1) _ (by simp; omega)]
        rw [List.append_assoc]
      · rw [if_neg hm, if_neg hm]
        rw [ih (i + 1) acc (by omega)]
        simp

mutual
theorem searchNode_take (pat : List Char) (max_results : Nat) :
    ∀ (n : FNode) (pre : VPath) (acc : List SearchResult),
      acc.length ≤ max_results →
      searchNode pat max_results pre n acc
        = (acc ++ hitsNode pat pre n).take max_results
  | .file name size lines => by
    intro pre acc h
    simp only [searchNode, hitsNode]
    by_cases hs : size > 1024 * 1024 ∨ size = 0
    · rw [if_pos hs, if_pos hs]
      simp [List.take_of_length_le h]
    · rw [if_neg hs, if_neg hs]
      exact searchLines_take _ _ _ lines 0 acc h
  | .dir name children => by
    intro pre acc h
    simp only [searchNode, hitsNode]
    exact searchFL_take pat max_results children (pre ++ [name]) acc h
theorem searchFL_take (pat : List Char) (max_results : Nat) :
    ∀ (fl : FList) (pre : VPath) (acc : List SearchResult),
      acc.length ≤ max_results →
      searchFL pat max_results pre fl acc
        = (acc ++ hitsFL pat pre fl).take max_results
  | .nil => by
    intro pre acc h
    simp [searchFL, hitsFL, List.take_of_length_le h]
  | .cons n rest => by
    intro pre acc h
    simp only [searchFL, hitsFL]
    by_cases hcap : max_results ≤ acc.length
    · rw [if_pos hcap]
      have hlen : acc.length = max_results := by omega
      rw [← hlen]
      exact (List.take_left acc _).symm
    · rw [if_neg hcap]
      by_cases hdot : startsWithDot n.fname = true
      · rw [if_pos hdot, if_pos hdot]
        rw [searchFL_take pat max_results rest pre acc h]
        simp
      · rw [if_neg hdot, if_neg hdot]
        rw [searchNode_take pat max_results n pre acc h]
        rw [searchFL_take pat max_results rest pre _ (List.length_take_le _ _)]
        rw [take_append_take, List.append_assoc]
end

/-- The provenance of a search hit: it comes from a file reached through
non-dotted directories only, itself non-dotted, non-empty and at most
1 MiB, on a line containing the pattern (membership in the file's line
hits). -/
inductive FromOkFile (pat : List Char) : FList → VPath → SearchResult → Prop where
  | here {fl : FList} {pre : VPath} {name : String} {size : Nat}
      {lines : List String} {r : SearchResult} :
      FNode.file name size lines ∈ fl.toList →
      startsWithDot name = false →
      size ≠ 0 → size ≤ 1024 * 1024 →
      r ∈ hitsLines (pre ++ [name]) pat 0 lines →
      FromOkFile pat fl pre r
  | inDir {fl : FList} {pre : VPath} {name : String} {children : FList}
      {r : SearchResult} :
      FNode.dir name children ∈ fl.toList →
      startsWithDot name = false →
      FromOkFile pat children (pre ++ [name]) r →
      FromOkFile pat fl pre r

theorem FromOkFile.weaken {pat : List Char} {fl fl' : FList} {pre : VPath}
    {r : SearchResult} (h : FromOkFile pat fl pre r)
    (hsub : ∀ n, n ∈ fl.toList → n ∈ fl'.toList) : FromOkFile pat fl' pre r := by
  cases h with
  | here hmem hdot hnz hle hr => exact .here (hsub _ hmem) hdot hnz hle hr
  | inDir hmem hdot hrec => exact .inDir (hsub _ hmem) hdot hrec

mutual
theorem hitsNode_from (pat : List Char) :
    ∀ (n : FNode) (pre : VPath) (r : SearchResult),
      startsWithDot n.fname = false → r ∈ hitsNode pat pre n →
      FromOkFile pat (FList.cons n FList.nil) pre r
  | .file name size lines => by
    intro pre r hdot hr
    simp only [hitsNode] at hr
    by_cases hs : size > 1024 * 1024 ∨ size = 0
    · rw [if_pos hs] at hr
      cases hr
    · rw [if_neg hs] at hr
      push_neg at hs
      exact .here (by simp [FList.toList]) (by simpa [FNode.fname] using hdot)
        hs.2 (by omega) hr
  | .dir name children => by
    intro pre r hdot hr
    simp only [hitsNode] at hr
    exact .inDir (by simp [FList.toList]) (by simpa [FNode.fname] using hdot)
      (hitsFL_from pat children (pre ++ [name]) r hr)
theorem hitsFL_from (pat : List Char) :
    ∀ (fl : FList) (pre : VPath) (r : SearchResult),
      r ∈ hitsFL pat pre fl → FromOkFile pat fl pre r
  | .nil => by
    intro pre r hr
    simp [hitsFL] at hr
  | .cons n rest => by
    intro pre r hr
    simp only [hitsFL] at hr
    rcases List.mem_append.mp hr with h1 | h1
    · by_cases hdot : startsWithDot n.fname = true
      · rw [if_pos hdot] at h1
        cases h1
      · rw [if_neg hdot] at h1
        refine (hitsNode_from pat n pre r (by simpa using hdot) h1).weaken ?_
        intro m hm
        simp [FList.toList] at hm
        simp [FList.toList, hm]
    · refine (hitsFL_from pat rest pre r h1).weaken ?_
      intro m hm
      simp [FList.toList]
      right
      exact hm
end

/-- C8: for every directory tree, pattern and result cap,
`search_recursive` returns at most `cap` results; it returns exactly the
first `cap` hits of the uncapped scan in traversal order (the hard early
exit: nothing after the cap is scanned into the result, even mid-file);
and every returned result comes from a file reached only through
non-dotted names, whose name does not start with a dot, which is
non-empty and at most 1 MiB in size. -/
theorem c8_search_recursive (dir : VPath) (tree : FList) (pattern : String)
    (cap : Nat) :
    (search_recursive dir tree pattern cap).length ≤ cap ∧
    search_recursive dir tree pattern cap
      = (hitsFL (lowerChars pattern) dir tree).take cap ∧
    ∀ r ∈ search_recursive dir tree pattern cap,
      FromOkFile (lowerChars pattern) tree dir r := by
  have heq : search_recursive dir tree pattern cap
      = (hitsFL (lowerChars pattern) dir tree).take cap := by
    unfold search_recursive
    rw [searchFL_take (lowerChars pattern) cap tree dir [] (by simp)]
    simp
  refine ⟨?_, heq, ?_⟩
  · rw [heq]
    exact List.length_take_le _ _
  · intro r hr
    rw [heq] at hr
    exact hitsFL_from _ tree dir r (List.take_subset _ _ hr)

/-- A small concrete tree: a matching file and a dotted file. -/
def tree0 : FList :=
  FList.cons (FNode.file "notes.txt" 10 ["hello world", "second hello"])
    (FList.cons (FNode.file ".secret" 10 ["hello hidden"]) FList.nil)

/-- Witness for `c8_search_recursive` at a concrete tree, pattern and
cap. -/
theorem c8_search_recursive_witness :
    (search_recursive ["root"] tree0 "HELLO" 1).length ≤ 1 ∧
    search_recursive ["root"] tree0 "HELLO" 1
      = (hitsFL (lowerChars "HELLO") ["root"] tree0).take 1 ∧
    ∀ r ∈ search_recursive ["root"] tree0 "HELLO" 1,
      FromOkFile (lowerChars "HELLO") tree0 ["root"] r :=
  c8_search_recursive ["root"] tree0 "HELLO" 1
